import Mathlib

/-!
Verification development for the earnings-cache pipeline
(`scripts/fetch_earnings.py`).

The script maintains a cached index of upcoming corporate earnings dates.
Its core pieces, embedded below:

* `month_ranges`        — splits an inclusive date range into per-month windows;
* `normalize_time_flag` — normalizes a raw time-of-day value to bmo/amc/tbd;
* `fetch_symbols_from_exchanges` / `load_symbols_cached`
                        — the symbol-universe provider with its 7-day cache;
* `build_index_all`     — the event reducer mapping symbol → next earnings record;
* `serializeIndex`      — `json.dumps(idx, ensure_ascii=False, indent=2, sort_keys=True)`;
* `mainRun`             — the orchestrator with its freshness gate and
                          change detection, modelled as a pure function from an
                          environment (clock, config, network oracles) and a
                          file-system state to a new state plus an effect trace.

Dates are `year/month/day` triples of naturals ordered lexicographically,
matching `datetime.date` on valid dates.  Python's float time arithmetic is
modelled with `ℚ` (the comparisons involved are exact at the scales used).
-/

/-- Calendar date, mirroring `datetime.date`.  Validity (month in 1..12, day in
range for the month) is tracked separately by `ValidDate`. -/
structure Date where
  year : Nat
  month : Nat
  day : Nat
deriving DecidableEq, Repr

/-- Lexicographic order on dates; agrees with `datetime.date` ordering on
valid dates. -/
def Date.le (a b : Date) : Prop :=
  a.year < b.year ∨ (a.year = b.year ∧
    (a.month < b.month ∨ (a.month = b.month ∧ a.day ≤ b.day)))

/-- Strict lexicographic order on dates. -/
def Date.lt (a b : Date) : Prop :=
  a.year < b.year ∨ (a.year = b.year ∧
    (a.month < b.month ∨ (a.month = b.month ∧ a.day < b.day)))

instance (a b : Date) : Decidable (Date.le a b) := by
  unfold Date.le; infer_instance

instance (a b : Date) : Decidable (Date.lt a b) := by
  unfold Date.lt; infer_instance

/-- Gregorian leap-year test, as in `datetime`. -/
def isLeap (y : Nat) : Bool :=
  y % 4 == 0 && (y % 100 != 0 || y % 400 == 0)

/-- Number of days in a month, as in `datetime`. -/
def daysInMonth (y m : Nat) : Nat :=
  if m = 2 then (if isLeap y then 29 else 28)
  else if m = 4 ∨ m = 6 ∨ m = 9 ∨ m = 11 then 30
  else 31

/-- A structurally valid calendar date (what `datetime.date` guarantees). -/
def ValidDate (d : Date) : Prop :=
  1 ≤ d.month ∧ d.month ≤ 12 ∧ 1 ≤ d.day ∧ d.day ≤ daysInMonth d.year d.month

instance (d : Date) : Decidable (ValidDate d) := by
  unfold ValidDate; infer_instance

/-- Successor day (`+ timedelta(days=1)` on valid dates). -/
def nextDay (d : Date) : Date :=
  if d.day < daysInMonth d.year d.month then ⟨d.year, d.month, d.day + 1⟩
  else if d.month < 12 then ⟨d.year, d.month + 1, 1⟩
  else ⟨d.year + 1, 1, 1⟩

/-- Predecessor day (`- timedelta(days=1)` on valid dates). -/
def prevDay (d : Date) : Date :=
  if 1 < d.day then ⟨d.year, d.month, d.day - 1⟩
  else if 1 < d.month then ⟨d.year, d.month - 1, daysInMonth d.year (d.month - 1)⟩
  else ⟨d.year - 1, 12, 31⟩

/-- `max(a, b)` on dates as used by `month_ranges` (`max` of two Python dates). -/
def dmax (a b : Date) : Date := if Date.le b a then a else b

/-- `min(a, b)` on dates as used by `month_ranges`. -/
def dmin (a b : Date) : Date := if Date.le a b then a else b

/-- Month counter used to bound the `month_ranges` loop. -/
def monthIndex (d : Date) : Nat := d.year * 12 + d.month

/-- Loop body of `month_ranges` (source lines 55–64): `cur` is the first day of
the month under consideration; while `cur ≤ date(end.year, end.month, 1)`,
emit `(max(cur, start), min(last-of-month, end))` and advance to the next
month.  The fuel argument is chosen in `month_ranges` so that it never runs
out before the loop condition turns false. -/
def month_ranges_go (sd ed : Date) : Date → Nat → List (Date × Date)
  | _, 0 => []
  | cur, fuel + 1 =>
    if Date.le cur ⟨ed.year, ed.month, 1⟩ then
      let nxt : Date :=
        if cur.month = 12 then ⟨cur.year + 1, 1, 1⟩ else ⟨cur.year, cur.month + 1, 1⟩
      let lastD := prevDay nxt
      (dmax cur sd, dmin lastD ed) :: month_ranges_go sd ed nxt fuel
    else []

/-- `month_ranges(start_date, end_date)` (source lines 50–65): partition the
inclusive range `[start, end]` into calendar-month windows.  The source
formats each boundary with `strftime("%Y-%m-%d")`; the embedding keeps the
date values themselves. -/
def month_ranges (sd ed : Date) : List (Date × Date) :=
  month_ranges_go sd ed ⟨sd.year, sd.month, 1⟩
    (monthIndex ed + 1 - monthIndex ⟨sd.year, sd.month, 1⟩)

/-! ### String helpers (Python `str.strip`, `str.lower`, `str.split`) -/

/-- Python whitespace (`str.strip` with no argument), ASCII range. -/
def isPySpace (c : Char) : Bool :=
  c = ' ' || c = '\t' || c = '\n' || c = '\r' || c = '\x0b' || c = '\x0c'

/-- `s.strip()`. -/
def pyStrip (s : String) : String :=
  String.mk (((s.toList.dropWhile isPySpace).reverse.dropWhile isPySpace).reverse)

/-- `s.lower()` (ASCII, which covers every value the script compares). -/
def pyLower (s : String) : String :=
  String.mk (s.toList.map Char.toLower)

/-- Split a character list at every occurrence of `sep`, Python
`str.split(sep)` semantics (`"".split(sep) == [""]`). -/
def splitOnChar (sep : Char) : List Char → List (List Char)
  | [] => [[]]
  | c :: cs =>
    let r := splitOnChar sep cs
    if c = sep then [] :: r
    else
      match r with
      | [] => [[c]]
      | h :: t => (c :: h) :: t

/-- `s.split(sep)` for a one-character separator. -/
def pySplit (s : String) (sep : Char) : List String :=
  (splitOnChar sep s.toList).map String.mk

/-- Numeric value of a non-empty all-digit character list, else `none`. -/
def digitsVal (cs : List Char) : Option Nat :=
  if cs = [] then none
  else if cs.all Char.isDigit then
    some (cs.foldl (fun n c => n * 10 + (c.toNat - 48)) 0)
  else none

/-- `datetime.datetime.strptime(s, "%Y-%m-%d").date()` with `ValueError`
mapped to `none`: exactly four year digits, one or two month and day digits,
and the usual calendar validity checks. -/
def parseDate (s : String) : Option Date :=
  match splitOnChar '-' s.toList with
  | [ys, ms, ds] =>
    if ys.length = 4 ∧ (ms.length = 1 ∨ ms.length = 2) ∧
        (ds.length = 1 ∨ ds.length = 2) then
      match digitsVal ys, digitsVal ms, digitsVal ds with
      | some y, some m, some d =>
        if 1 ≤ y ∧ 1 ≤ m ∧ m ≤ 12 ∧ 1 ≤ d ∧ d ≤ daysInMonth y m then
          some ⟨y, m, d⟩
        else none
      | _, _, _ => none
    else none
  | _ => none

/-- `normalize_time_flag(row_time)` (source lines 119–125).  The raw value is
either absent (`None`, modelled `none`) or a string; Python's falsiness test
also sends the empty string to `"tbd"`. -/
def normalize_time_flag (row_time : Option String) : String :=
  match row_time with
  | none => "tbd"
  | some s =>
    if s = "" then "tbd"
    else
      let val := pyLower (pyStrip s)
      if val = "bmo" ∨ val = "amc" then val else "tbd"

/-! ### Stable sorting (Python `list.sort` / `sorted` are stable) -/

/-- Insert `x` into `l` before the first element `y` with `le x y`;
the insertion step of a stable insertion sort. -/
def insLe (le : α → α → Bool) (x : α) : List α → List α
  | [] => [x]
  | y :: ys => if le x y then x :: y :: ys else y :: insLe le x ys

/-- Stable insertion sort.  Python's sort is stable, so any stable sort by the
same key computes the same list; this one is chosen for easy reasoning. -/
def sortIns (le : α → α → Bool) : List α → List α
  | [] => []
  | x :: xs => insLe le x (sortIns le xs)

/-- String comparison used by Python `sorted` on symbol and exchange lists. -/
def strLeB (a b : String) : Bool := decide (a ≤ b)

/-- `sorted(xs)` for a list of strings. -/
def pySortStr (xs : List String) : List String := sortIns strLeB xs

/-- `sorted(set(xs))`: the distinct elements in ascending order.
(`List.dedup` keeps one copy of each element; the subsequent sort makes the
iteration order of the Python set irrelevant.) -/
def pySortedSet (xs : List String) : List String := pySortStr xs.dedup

/-! ### The event reducer `build_index_all` -/

/-- One raw calendar row as consumed by the reducer: the `symbol`, `date` and
`time` fields of a Finnhub `earningsCalendar` entry (absent keys are `none`). -/
structure CalRow where
  symbol : Option String
  date : Option String
  time : Option String
deriving DecidableEq, Repr

/-- One output record of the reducer (source lines 151–157).  `lastUpdatedUtc`
is the `datetime.utcnow()` stamp taken during the run. -/
structure EarnRec where
  symbol : String
  nextEarningsDate : Date
  time : String
  finnhubCount : Nat
  lastUpdatedUtc : String
deriving DecidableEq, Repr

/-- Symbol/date extraction and filtering applied to each row *before* the
forward-looking filter (source lines 134–141): strip the symbol, require a
non-empty symbol and date, and parse the date. -/
def rawParse (r : CalRow) : Option (String × Date) :=
  let sym := pyStrip (r.symbol.getD "")
  match r.date with
  | none => none
  | some dstr =>
    if sym = "" ∨ dstr = "" then none
    else
      match parseDate dstr with
      | none => none
      | some dt => some (sym, dt)

/-- Full per-row filter of the reducer: `rawParse` plus the
`if dt < today: continue` forward-looking filter (source line 142). -/
def rowParse (today : Date) (r : CalRow) : Option (String × Date) :=
  match rawParse r with
  | none => none
  | some (sym, dt) => if Date.lt dt today then none else some (sym, dt)

/-- Does this row parse to a date strictly before `today`?  (Such rows are
exactly the ones discarded by the forward-looking filter.) -/
def rowPast (today : Date) (r : CalRow) : Bool :=
  match rawParse r with
  | none => false
  | some (_, dt) => decide (Date.lt dt today)

/-- `by_symbol.setdefault(sym, []).append(item)` on an insertion-ordered
association list: append to an existing group, else add a new group at the
end (Python dicts preserve insertion order). -/
def upd (l : List (String × List α)) (k : String) (a : α) : List (String × List α) :=
  match l with
  | [] => [(k, [a])]
  | (k', v) :: rest =>
    if k' = k then (k', v ++ [a]) :: rest else (k', v) :: upd rest k a

/-- First-match lookup in an association list. -/
def glook : List (String × β) → String → Option β
  | [], _ => none
  | (k, v) :: rest, s => if k = s then some v else glook rest s

/-- Comparison by date key: `items.sort(key=lambda t: t[0])`. -/
def itemLe (p q : Date × CalRow) : Bool := decide (Date.le p.1 q.1)

/-- Sort a symbol's `(date, row)` items by date, stably. -/
def sortItems (l : List (Date × CalRow)) : List (Date × CalRow) := sortIns itemLe l

/-- The grouping pass of `build_index_all` (source lines 131–144): one fold
over the rows, dropping rows that fail `rowParse` and appending the rest to
their symbol's group. -/
def groupRows (today : Date) (rows : List CalRow) : List (String × List (Date × CalRow)) :=
  rows.foldl
    (fun acc r =>
      match rowParse today r with
      | none => acc
      | some (sym, dt) => upd acc sym (dt, r))
    []

/-- The per-group reduction of `build_index_all` (source lines 147–157):
sort the group's items by date, take the earliest date, count the rows on that
date, and normalize the time flag of the first of them. -/
def mkOut (nowIso : String) (g : String × List (Date × CalRow)) : Option (String × EarnRec) :=
  match sortItems g.2 with
  | [] => none
  | (bd, _) :: _ =>
    let sameDay := (sortItems g.2).filter (fun q => decide (q.1 = bd))
    some (g.1,
      { symbol := g.1
        nextEarningsDate := bd
        time := normalize_time_flag
          (match sameDay with
           | [] => none
           | q :: _ => q.2.time)
        finnhubCount := sameDay.length
        lastUpdatedUtc := nowIso })

/-- `build_index_all(calendar_json)` (source lines 127–158), with the ambient
`datetime.date.today()` and `datetime.utcnow()` readings made explicit
parameters.  The `"earningsCalendar"` unwrapping is done by the caller; the
output dict is an insertion-ordered association list. -/
def build_index_all (today : Date) (nowIso : String) (rows : List CalRow) :
    List (String × EarnRec) :=
  (groupRows today rows).filterMap (mkOut nowIso)

/-! ### Deterministic serialization
`json.dumps(idx, ensure_ascii=False, indent=2, sort_keys=True)` for the
two-level document this script writes. -/

/-- JSON string escaping for the characters that can require it here. -/
def jsonEscape (s : String) : String :=
  String.join (s.toList.map (fun c =>
    if c = '"' then "\\\""
    else if c = '\\' then "\\\\"
    else if c = '\n' then "\\n"
    else if c = '\t' then "\\t"
    else if c = '\r' then "\\r"
    else String.mk [c]))

/-- A JSON string literal. -/
def jstr (s : String) : String := "\"" ++ jsonEscape s ++ "\""

/-- Zero-padded decimal rendering. -/
def padNum (width n : Nat) : String :=
  let s := toString n
  String.mk (List.replicate (width - s.length) '0') ++ s

/-- `date.strftime("%Y-%m-%d")`. -/
def formatDate (d : Date) : String :=
  padNum 4 d.year ++ "-" ++ padNum 2 d.month ++ "-" ++ padNum 2 d.day

/-- Serialization of one record, keys in sorted order, nested at indent 2. -/
def serRec (r : EarnRec) : String :=
  "\x7b\n" ++
  "    " ++ jstr "finnhubCount" ++ ": " ++ toString r.finnhubCount ++ ",\n" ++
  "    " ++ jstr "lastUpdatedUtc" ++ ": " ++ jstr r.lastUpdatedUtc ++ ",\n" ++
  "    " ++ jstr "nextEarningsDate" ++ ": " ++ jstr (formatDate r.nextEarningsDate) ++ ",\n" ++
  "    " ++ jstr "symbol" ++ ": " ++ jstr r.symbol ++ ",\n" ++
  "    " ++ jstr "time" ++ ": " ++ jstr r.time ++ "\n" ++
  "  \x7d"

/-- Key comparison for `sort_keys=True`. -/
def entryLe (a b : String × EarnRec) : Bool := strLeB a.1 b.1

/-- `json.dumps(idx, ensure_ascii=False, indent=2, sort_keys=True)` for the
earnings index document. -/
def serializeIndex (idx : List (String × EarnRec)) : String :=
  match sortIns entryLe idx with
  | [] => "\x7b\x7d"
  | entries =>
    "\x7b\n" ++
    String.intercalate ",\n"
      (entries.map (fun p => "  " ++ jstr p.1 ++ ": " ++ serRec p.2)) ++
    "\n\x7d"

/-! ### Symbol universe provider -/

/-- One row of a `/stock/symbol` response: the `symbol` and `type` fields. -/
structure SymRow where
  symbol : Option String
  type : Option String
deriving DecidableEq, Repr

/-- Substring test on character lists (Python `needle in hay`). -/
def startsWithChars : List Char → List Char → Bool
  | [], _ => true
  | _ :: _, [] => false
  | n :: ns, c :: cs => n = c && startsWithChars ns cs

/-- Scan for an occurrence of `n` at any position of the second list. -/
def containsChars (n : List Char) : List Char → Bool
  | [] => startsWithChars n []
  | c :: cs => startsWithChars n (c :: cs) || containsChars n cs

/-- `needle in hay` for strings (contiguous substring containment). -/
def containsSub (hay needle : String) : Bool :=
  containsChars needle.toList hay.toList

/-- Per-row filtering of a symbol listing (source lines 82–90): strip the
symbol, require it non-empty, and drop ETF/fund instruments by `type` tag. -/
def goodSym (row : SymRow) : Option String :=
  let sym := pyStrip (row.symbol.getD "")
  let typ := pyLower (row.type.getD "")
  if sym = "" then none
  else if containsSub typ "etf" || containsSub typ "fund" then none
  else some sym

/-- The run-metadata document written by `write_stats` (source lines 160–170). -/
structure StatsDoc where
  count : Nat
  daysAhead : Nat
  daysBack : Nat
  lastUpdatedUtc : String
  universeCount : Option Nat
  calendarRowsFetched : Option Nat
  calendarRowsAfterFilter : Option Nat
deriving DecidableEq, Repr

/-- Network / storage effects performed by a run, in order. -/
inductive Eff where
  | netSym (ex : String)
  | netCal (frm toD : Date)
  | writeSymCache (exchanges : List String) (generatedUtc : String) (symbols : List String)
  | writeEarnings (content : String)
  | writeStats (content : StatsDoc)
  | writeLastRun (stamp : String)
deriving DecidableEq

/-- The persisted earnings-index file: its byte content, the result of
`len(json.loads(content))` when the content parses as an index document
(`none` when `json.loads` would raise), and the file's mtime in epoch
seconds. -/
structure EFile where
  content : String
  loadCount : Option Nat
  mtime : ℚ
deriving DecidableEq

/-- The persisted symbol-universe cache document together with its mtime
(a file whose content fails to parse behaves exactly like a missing one —
the `except: pass` at source lines 102–103 — and is modelled as `none`). -/
structure SymCacheFile where
  exchanges : List String
  generatedUtc : String
  symbols : List String
  mtime : ℚ
deriving DecidableEq

/-- On-disk state consumed and produced by a run. -/
structure FS where
  earnings : Option EFile
  symCache : Option SymCacheFile
  stats : Option StatsDoc
  lastRun : Option String
deriving DecidableEq

/-- Ambient inputs of a run: the clock, the configuration, and the two
network endpoints as oracles.  `fetchSym ex = none` models a request for
exchange `ex` that raises (the `except` at source lines 79–81);
`fetchCal` models a successful calendar response — a calendar fetch failure
aborts the whole run before anything is written, which is outside the claims
settled here. -/
structure Env where
  now : ℚ
  today : Date
  utcIso : String
  utcFmt : String
  ttlHours : ℚ
  daysAhead : Nat
  daysBack : Nat
  exchangesStr : String
  fetchSym : String → Option (List SymRow)
  fetchCal : Date → Date → List CalRow

/-- `today + timedelta(days=n)`. -/
def addDays (d : Date) : Nat → Date
  | 0 => d
  | n + 1 => addDays (nextDay d) n

/-- `today - timedelta(days=n)`. -/
def subDays (d : Date) : Nat → Date
  | 0 => d
  | n + 1 => subDays (prevDay d) n

/-- The loop of `fetch_symbols_from_exchanges` (source lines 68–90): for each
exchange, strip it, skip it when empty, attempt the request (an effect even
when it fails), and collect the surviving symbols of successful responses. -/
def fetchSymsGo (oracle : String → Option (List SymRow)) :
    List String → List String × List Eff
  | [] => ([], [])
  | ex :: rest =>
    let e := pyStrip ex
    if e = "" then fetchSymsGo oracle rest
    else
      let here : List String :=
        match oracle e with
        | none => []
        | some rows => rows.filterMap goodSym
      let tail := fetchSymsGo oracle rest
      (here ++ tail.1, Eff.netSym e :: tail.2)

/-- `fetch_symbols_from_exchanges(ex_list)` (source lines 67–91): the
collected symbols, deduplicated and sorted, together with the network
effects. -/
def fetch_symbols_from_exchanges (oracle : String → Option (List SymRow))
    (exList : List String) : List String × List Eff :=
  let r := fetchSymsGo oracle exList
  (pySortedSet r.1, r.2)

/-- The refresh branch of `load_symbols_cached` (source lines 104–110):
fetch, persist `{meta: {exchanges, generatedUtc}, symbols}`, return the set. -/
def symRefresh (env : Env) (fs : FS) (exList : List String) :
    Finset String × FS × List Eff :=
  let r := fetch_symbols_from_exchanges env.fetchSym exList
  (r.1.toFinset,
   { fs with symCache := some ⟨exList, env.utcIso, r.1, env.now⟩ },
   r.2 ++ [Eff.writeSymCache exList env.utcIso r.1])

/-- `load_symbols_cached(exchanges, ttl_days)` (source lines 93–110): use the
cached universe when the cache file exists, is younger than `ttl_days`, and
`sorted(cached_ex) == sorted(exchanges)`; otherwise refresh. -/
def load_symbols_cached (env : Env) (fs : FS) (exList : List String)
    (ttlDays : ℚ) : Finset String × FS × List Eff :=
  match fs.symCache with
  | some c =>
    if (env.now - c.mtime) / 86400 < ttlDays ∧ pySortStr c.exchanges = pySortStr exList
    then (c.symbols.toFinset, fs, [])
    else symRefresh env fs exList
  | none => symRefresh env fs exList

/-! ### The orchestrator `main` -/

/-- `file_age_hours(OUTPUT_JSON)` (source lines 45–48): `1e9` hours for a
missing file. -/
def earnAge (env : Env) (fs : FS) : ℚ :=
  match fs.earnings with
  | none => 10 ^ 9
  | some ef => (env.now - ef.mtime) / 3600

/-- The freshness gate of `main` (source line 176). -/
def freshGate (env : Env) (fs : FS) : Prop := earnAge env fs < env.ttlHours

instance (env : Env) (fs : FS) : Decidable (freshGate env fs) := by
  unfold freshGate; infer_instance

/-- The stats document produced by `write_stats` (source lines 160–170). -/
def mkStats (env : Env) (count : Nat) (u rt raf : Option Nat) : StatsDoc :=
  ⟨count, env.daysAhead, env.daysBack, env.utcIso, u, rt, raf⟩

/-- `ex_list = [e.strip() for e in EXCHANGES.split(",") if e.strip()]`
(source line 187). -/
def exListOf (env : Env) : List String :=
  ((pySplit env.exchangesStr ',').map pyStrip).filter (fun e => e ≠ "")

/-- The symbol universe resolved by the run (step 1 of `main`). -/
def universeOf (env : Env) (fs : FS) : Finset String :=
  (load_symbols_cached env fs (exListOf env) 7).1

/-- `FROM_DATE` (source line 41). -/
def fromDateOf (env : Env) : Date := subDays env.today env.daysBack

/-- `TO_DATE` (source line 42). -/
def toDateOf (env : Env) : Date := addDays env.today env.daysAhead

/-- All calendar rows, concatenated over the month windows in partition order
(step 2 of `main`, source lines 190–197). -/
def allRowsOf (env : Env) : List CalRow :=
  (month_ranges (fromDateOf env) (toDateOf env)).flatMap (fun p => env.fetchCal p.1 p.2)

/-- Universe filtering (step 3 of `main`, source line 200). -/
def filteredRowsOf (env : Env) (fs : FS) : List CalRow :=
  (allRowsOf env).filter (fun r => decide (pyStrip (r.symbol.getD "") ∈ universeOf env fs))

/-- The freshly computed index (step 4 of `main`). -/
def idxOf (env : Env) (fs : FS) : List (String × EarnRec) :=
  build_index_all env.today env.utcIso (filteredRowsOf env fs)

/-- `new_json` (source line 207). -/
def newJsonOf (env : Env) (fs : FS) : String := serializeIndex (idxOf env fs)

/-- `old_json` (source line 208): the current file content, `""` when the
file is absent. -/
def oldJsonOf (fs : FS) : String :=
  match fs.earnings with
  | none => ""
  | some ef => ef.content

/-- `main()` (source lines 174–222) as a pure transition: given the ambient
environment and the on-disk state, produce the final on-disk state and the
ordered effect trace of the completed run. -/
def mainRun (env : Env) (fs : FS) : FS × List Eff :=
  if freshGate env fs then
    let cnt : Nat :=
      match fs.earnings with
      | some ef => ef.loadCount.getD 0
      | none => 0
    let st := mkStats env cnt none none none
    ({ fs with stats := some st, lastRun := some env.utcFmt },
     [Eff.writeStats st, Eff.writeLastRun env.utcFmt])
  else
    let loaded := load_symbols_cached env fs (exListOf env) 7
    let symUniv := loaded.1
    let fs1 := loaded.2.1
    let symEffs := loaded.2.2
    let ranges := month_ranges (fromDateOf env) (toDateOf env)
    let allRows := ranges.flatMap (fun p => env.fetchCal p.1 p.2)
    let calEffs := ranges.map (fun p => Eff.netCal p.1 p.2)
    let filteredRows := allRows.filter (fun r => decide (pyStrip (r.symbol.getD "") ∈ symUniv))
    let idx := build_index_all env.today env.utcIso filteredRows
    let newJson := serializeIndex idx
    let oldJson := oldJsonOf fs
    let fs2 :=
      if newJson ≠ oldJson then
        { fs1 with earnings := some ⟨newJson, some idx.length, env.now⟩ }
      else fs1
    let wEff : List Eff := if newJson ≠ oldJson then [Eff.writeEarnings newJson] else []
    let st := mkStats env idx.length (some symUniv.card) (some allRows.length)
      (some filteredRows.length)
    ({ fs2 with stats := some st, lastRun := some env.utcFmt },
     symEffs ++ calEffs ++ wEff ++ [Eff.writeStats st, Eff.writeLastRun env.utcFmt])

/-! ### Spec-side helper definitions used by the claim statements -/

/-- The surviving rows of symbol `s`, in original (fetch) order: the rows that
pass the reducer's per-row filter (`rowParse`) and carry symbol `s`, paired
with their parsed dates. -/
def survRows (today : Date) (rows : List CalRow) (s : String) : List (Date × CalRow) :=
  rows.filterMap (fun r =>
    match rowParse today r with
    | none => none
    | some (sym, dt) => if sym = s then some (dt, r) else none)

/-- The keys of an association list, in order. -/
def keysOf (l : List (String × β)) : List String := l.map Prod.fst

/-- An index entry with the volatile `lastUpdatedUtc` stamp erased. -/
def eraseTs (p : String × EarnRec) : String × (String × Date × String × Nat) :=
  (p.1, (p.2.symbol, p.2.nextEarningsDate, p.2.time, p.2.finnhubCount))

/-- The window list `L` starting at expected first day `fexp` is a gap-free,
overlap-free chain of within-month windows ending exactly at `ed`: each
window `(f, t)` starts at the expected day, satisfies `f ≤ t`, stays inside
one calendar month, and the next window is expected to start the day after
`t`; the final window ends at `ed`. -/
def chainOk (ed : Date) : Date → List (Date × Date) → Prop
  | _, [] => False
  | fexp, (f, t) :: rest =>
    f = fexp ∧ Date.le f t ∧ f.year = t.year ∧ f.month = t.month ∧
      ((rest = [] ∧ t = ed) ∨ chainOk ed (nextDay t) rest)

/-- The cache-hit condition of `load_symbols_cached` (source lines 95–101):
a parseable cache file exists, is younger than `ttlDays`, and its exchange
list sorts to the same list as the requested one. -/
def symCacheHit (env : Env) (fs : FS) (exList : List String) (ttlDays : ℚ) : Prop :=
  ∃ c, fs.symCache = some c ∧ (env.now - c.mtime) / 86400 < ttlDays ∧
    pySortStr c.exchanges = pySortStr exList

/-- The stats document written by a full (non-fresh) run. -/
def statsOf (env : Env) (fs : FS) : StatsDoc :=
  mkStats env (idxOf env fs).length (some (universeOf env fs).card)
    (some (allRowsOf env).length) (some (filteredRowsOf env fs).length)

/-! ### Concrete sample data used by witnesses -/

/-- A small concrete environment: both network oracles fail / return nothing. -/
def sampleEnv : Env :=
  { now := 1000000
    today := ⟨2025, 1, 1⟩
    utcIso := "2025-01-01T00:00:00Z"
    utcFmt := "2025-01-01T00:00:00Z"
    ttlHours := 24
    daysAhead := 3
    daysBack := 2
    exchangesStr := "US,DE"
    fetchSym := fun _ => none
    fetchCal := fun _ _ => [] }

/-- Like `sampleEnv` but the symbol listing succeeds for exchange `US` (with
one common stock and one ETF) and fails for every other exchange. -/
def sampleEnv2 : Env :=
  { sampleEnv with
    fetchSym := fun ex =>
      if ex = "US" then
        some [⟨some "AAPL", some "Common Stock"⟩, ⟨some "SPY", some "ETF"⟩]
      else none }

/-- Empty on-disk state. -/
def emptyFS : FS := ⟨none, none, none, none⟩

/-- On-disk state with a stale, non-empty earnings artifact. -/
def staleFS : FS :=
  { earnings := some ⟨"OLD", some 3, 0⟩, symCache := none,
    stats := none, lastRun := none }

/-- On-disk state with a fresh earnings artifact (age below any sane TTL). -/
def freshFS : FS :=
  { earnings := some ⟨"CONTENT", some 5, 999000⟩, symCache := none,
    stats := none, lastRun := none }

/-- On-disk state with a young symbol-universe cache for exchanges US, DE. -/
def cachedSymFS : FS :=
  { earnings := none,
    symCache := some ⟨["US", "DE"], "G", ["AAPL", "SAP"], 990000⟩,
    stats := none, lastRun := none }

/-! ### Basic facts about the date order -/

lemma Date.le_refl (a : Date) : Date.le a a := by
  rcases a with ⟨y, m, d⟩; simp [Date.le]

lemma Date.le_total (a b : Date) : Date.le a b ∨ Date.le b a := by
  rcases a with ⟨y1, m1, d1⟩; rcases b with ⟨y2, m2, d2⟩
  simp [Date.le]; omega

lemma Date.lt_of_not_le {a b : Date} (h : ¬ Date.le a b) : Date.lt b a := by
  rcases a with ⟨y1, m1, d1⟩; rcases b with ⟨y2, m2, d2⟩
  simp [Date.le] at h; simp [Date.lt]; omega

lemma Date.le_of_not_lt {a b : Date} (h : ¬ Date.lt a b) : Date.le b a := by
  rcases a with ⟨y1, m1, d1⟩; rcases b with ⟨y2, m2, d2⟩
  simp [Date.lt] at h; simp [Date.le]; omega

lemma Date.lt_irrefl (a : Date) : ¬ Date.lt a a := by
  rcases a with ⟨y, m, d⟩; simp [Date.lt]

lemma Date.le_trans {a b c : Date} (h1 : Date.le a b) (h2 : Date.le b c) :
    Date.le a c := by
  rcases a with ⟨y1, m1, d1⟩; rcases b with ⟨y2, m2, d2⟩; rcases c with ⟨y3, m3, d3⟩
  simp [Date.le] at *; omega

lemma Date.le_antisymm {a b : Date} (h1 : Date.le a b) (h2 : Date.le b a) :
    a = b := by
  rcases a with ⟨y1, m1, d1⟩; rcases b with ⟨y2, m2, d2⟩
  simp [Date.le] at *; omega

lemma Date.ne_of_lt {a b : Date} (h : Date.lt a b) : a ≠ b := by
  rcases a with ⟨y1, m1, d1⟩; rcases b with ⟨y2, m2, d2⟩
  simp [Date.lt] at h; simp; omega

/-- C9 supporting fact: the normalizer returns its input (already trimmed and
lowercased) exactly on the known flags. -/
lemma normalize_of_known {s : String} (hs : s ≠ "")
    (h : pyLower (pyStrip s) = "bmo" ∨ pyLower (pyStrip s) = "amc") :
    normalize_time_flag (some s) = pyLower (pyStrip s) := by
  simp only [normalize_time_flag, if_neg hs, if_pos h]

/-- **C9**: the time-of-day normalization maps a raw value that trims and
lowercases to `"bmo"` or `"amc"` to that flag; absence, the empty string, and
every other string (e.g. `"noon"`) map to `"tbd"`; hence its range is exactly
`{bmo, amc, tbd}`. -/
theorem normalize_time_flag_spec :
    (∀ s : String, pyLower (pyStrip s) = "bmo" → normalize_time_flag (some s) = "bmo") ∧
    (∀ s : String, pyLower (pyStrip s) = "amc" → normalize_time_flag (some s) = "amc") ∧
    (∀ s : String, pyLower (pyStrip s) ≠ "bmo" → pyLower (pyStrip s) ≠ "amc" →
      normalize_time_flag (some s) = "tbd") ∧
    normalize_time_flag none = "tbd" ∧
    normalize_time_flag (some "") = "tbd" ∧
    normalize_time_flag (some "noon") = "tbd" ∧
    (∀ t : Option String,
      normalize_time_flag t = "bmo" ∨ normalize_time_flag t = "amc" ∨
        normalize_time_flag t = "tbd") := by
  refine ⟨?_, ?_, ?_, rfl, by decide, by decide, ?_⟩
  · intro s h
    by_cases hs : s = ""
    · subst hs; exact absurd h (by decide)
    · rw [normalize_of_known hs (Or.inl h), h]
  · intro s h
    by_cases hs : s = ""
    · subst hs; exact absurd h (by decide)
    · rw [normalize_of_known hs (Or.inr h), h]
  · intro s h1 h2
    by_cases hs : s = ""
    · subst hs; decide
    · simp only [normalize_time_flag, if_neg hs]
      rw [if_neg]
      simp [h1, h2]
  · intro t
    match t with
    | none => simp [normalize_time_flag]
    | some s =>
      by_cases hs : s = ""
      · subst hs; right; right; decide
      · by_cases hv : pyLower (pyStrip s) = "bmo" ∨ pyLower (pyStrip s) = "amc"
        · rw [normalize_of_known hs hv]
          rcases hv with h | h <;> simp [h]
        · push_neg at hv
          right; right
          simp only [normalize_time_flag, if_neg hs]
          rw [if_neg]; simp [hv.1, hv.2]

/-- Witness for C9 at concrete inputs. -/
theorem normalize_time_flag_spec_witness :
    normalize_time_flag (some " BMO ") = "bmo" ∧
    normalize_time_flag (some "Amc") = "amc" ∧
    normalize_time_flag (some "noon") = "tbd" :=
  ⟨normalize_time_flag_spec.1 " BMO " (by decide),
   normalize_time_flag_spec.2.1 "Amc" (by decide),
   normalize_time_flag_spec.2.2.1 "noon" (by decide) (by decide)⟩

/-! ### Facts about the stable insertion sort -/

lemma insLe_perm (le : α → α → Bool) (x : α) :
    ∀ l, List.Perm (insLe le x l) (x :: l)
  | [] => List.Perm.refl _
  | y :: ys => by
    simp only [insLe]
    split
    · exact List.Perm.refl _
    · exact ((insLe_perm le x ys).cons y).trans (List.Perm.swap x y ys)

lemma sortIns_perm (le : α → α → Bool) :
    ∀ l, List.Perm (sortIns le l) l
  | [] => List.Perm.refl _
  | x :: xs => (insLe_perm le x (sortIns le xs)).trans ((sortIns_perm le xs).cons x)

lemma insLe_pairwise {le : α → α → Bool}
    (htot : ∀ a b, le a b = true ∨ le b a = true)
    (htrans : ∀ a b c, le a b = true → le b c = true → le a c = true)
    (x : α) : ∀ {l}, List.Pairwise (fun a b => le a b = true) l →
      List.Pairwise (fun a b => le a b = true) (insLe le x l)
  | [], _ => by simp [insLe]
  | y :: ys, h => by
    rw [List.pairwise_cons] at h
    simp only [insLe]
    split
    · rename_i hxy
      rw [List.pairwise_cons]
      refine ⟨?_, List.pairwise_cons.mpr h⟩
      intro z hz
      rcases List.mem_cons.mp hz with rfl | hz'
      · exact hxy
      · exact htrans x y z hxy (h.1 z hz')
    · rename_i hxy
      have hyx : le y x = true := by
        rcases htot x y with h' | h'
        · exact absurd h' hxy
        · exact h'
      rw [List.pairwise_cons]
      refine ⟨?_, insLe_pairwise htot htrans x h.2⟩
      intro z hz
      have hz2 : z = x ∨ z ∈ ys := List.mem_cons.mp ((insLe_perm le x ys).mem_iff.mp hz)
      rcases hz2 with rfl | hz'
      · exact hyx
      · exact h.1 z hz'

lemma sortIns_pairwise {le : α → α → Bool}
    (htot : ∀ a b, le a b = true ∨ le b a = true)
    (htrans : ∀ a b c, le a b = true → le b c = true → le a c = true) :
    ∀ l, List.Pairwise (fun a b => le a b = true) (sortIns le l)
  | [] => List.Pairwise.nil
  | x :: xs => insLe_pairwise htot htrans x (sortIns_pairwise htot htrans xs)

/-- Totality of the date-key comparison. -/
lemma itemLe_total (p q : Date × CalRow) : itemLe p q = true ∨ itemLe q p = true := by
  simp only [itemLe, decide_eq_true_eq]
  exact Date.le_total p.1 q.1

lemma itemLe_trans (p q r : Date × CalRow) (h1 : itemLe p q = true)
    (h2 : itemLe q r = true) : itemLe p r = true := by
  simp only [itemLe, decide_eq_true_eq] at *
  exact Date.le_trans h1 h2

/-- Stability of the date sort, phrased through filters: the rows carrying any
fixed date appear in the sorted list exactly as they appear in the input. -/
lemma filter_insLe_item (bd : Date) (x : Date × CalRow) :
    ∀ l, List.filter (fun q => decide (q.1 = bd)) (insLe itemLe x l) =
      if x.1 = bd then x :: List.filter (fun q => decide (q.1 = bd)) l
      else List.filter (fun q => decide (q.1 = bd)) l
  | [] => by
    by_cases hx : x.1 = bd <;> simp [insLe, List.filter_cons, hx]
  | y :: ys => by
    simp only [insLe]
    split
    · by_cases hx : x.1 = bd <;> simp [List.filter_cons, hx]
    · rename_i hxy
      have hlt : Date.lt y.1 x.1 := by
        apply Date.lt_of_not_le
        intro hle
        exact hxy (by simp [itemLe, hle])
      have hrec := filter_insLe_item bd x ys
      by_cases hx : x.1 = bd
      · have hy : ¬ (y.1 = bd) := by
          intro he
          exact Date.ne_of_lt hlt (he.trans hx.symm)
        simp [List.filter_cons, hy, hx] at hrec ⊢
        exact hrec
      · simp [List.filter_cons, hx] at hrec ⊢
        rw [hrec]

/-- The sort by date key never changes the subsequence of rows carrying a
given date. -/
lemma sortItems_filter (bd : Date) :
    ∀ l, List.filter (fun q => decide (q.1 = bd)) (sortItems l) =
      List.filter (fun q => decide (q.1 = bd)) l
  | [] => rfl
  | x :: xs => by
    simp only [sortItems, sortIns]
    rw [filter_insLe_item bd x (sortIns itemLe xs)]
    have hrec := sortItems_filter bd xs
    simp only [sortItems] at hrec
    by_cases hx : x.1 = bd
    · rw [if_pos hx, hrec]
      simp [List.filter_cons, hx]
    · rw [if_neg hx, hrec]
      simp [List.filter_cons, hx]

/-! ### The grouping pass: association-list lemmas -/

lemma glook_upd (k : String) (a : α) :
    ∀ (l : List (String × List α)) (s : String),
      glook (upd l k a) s =
        if s = k then some ((glook l s).getD [] ++ [a]) else glook l s
  | [], s => by
    by_cases h : s = k
    · subst h; simp [upd, glook]
    · have h' : ¬ k = s := fun hh => h hh.symm
      simp [upd, glook, h, h']
  | (k', v) :: rest, s => by
    by_cases hk : k' = k
    · subst hk
      by_cases hs : k' = s
      · subst hs
        simp [upd, glook]
      · have hs' : ¬ s = k' := fun hh => hs hh.symm
        simp [upd, glook, hs, hs']
    · by_cases hs : k' = s
      · subst hs
        simp [upd, glook, hk]
      · have hs' : ¬ s = k' := fun hh => hs hh.symm
        have hrec := glook_upd k a rest s
        simp [upd, glook, hk, hs, hs', hrec]

lemma keys_upd (k : String) (a : α) :
    ∀ l : List (String × List α),
      keysOf (upd l k a) = if k ∈ keysOf l then keysOf l else keysOf l ++ [k]
  | [] => by simp [upd, keysOf]
  | (k', v) :: rest => by
    by_cases hk : k' = k
    · subst hk
      simp [upd, keysOf]
    · have hrec := keys_upd k a rest
      simp only [keysOf] at hrec
      simp only [upd, if_neg hk, keysOf, List.map_cons]
      rw [hrec]
      have hkk : ¬ k = k' := fun hh => hk hh.symm
      by_cases hm : k ∈ List.map Prod.fst rest
      · simp [List.mem_cons, hm]
      · simp [List.mem_cons, hm, hkk]

lemma nodup_keys_upd (k : String) (a : α) {l : List (String × List α)}
    (h : (keysOf l).Nodup) : (keysOf (upd l k a)).Nodup := by
  rw [keys_upd]
  split
  · exact h
  · rename_i hm
    simp [List.nodup_append, h, hm]

lemma glook_of_mem_of_nodupKeys :
    ∀ {l : List (String × β)} {s : String} {v : β},
      (keysOf l).Nodup → (s, v) ∈ l → glook l s = some v := by
  intro l
  induction l with
  | nil => intro s v _ hm; cases hm
  | cons hd rest ih =>
    obtain ⟨k', v'⟩ := hd
    intro s v hnd hm
    simp only [keysOf, List.map_cons, List.nodup_cons] at hnd
    rcases List.mem_cons.mp hm with he | hm'
    · cases he
      simp [glook]
    · have hks : ¬ k' = s := by
        intro he
        subst he
        exact hnd.1 (List.mem_map.mpr ⟨(k', v), hm', rfl⟩)
      simp only [glook, if_neg hks]
      exact ih hnd.2 hm'

lemma nodup_keys_groupRows_aux (today : Date) :
    ∀ (rows : List CalRow) (acc : List (String × List (Date × CalRow))),
      (keysOf acc).Nodup →
      (keysOf (rows.foldl
        (fun acc r =>
          match rowParse today r with
          | none => acc
          | some (sym, dt) => upd acc sym (dt, r))
        acc)).Nodup
  | [], acc, h => h
  | r :: rest, acc, h => by
    simp only [List.foldl_cons]
    apply nodup_keys_groupRows_aux today rest
    cases hp : rowParse today r with
    | none => simpa [hp] using h
    | some p =>
      obtain ⟨sym, dt⟩ := p
      simp only [hp]
      exact nodup_keys_upd sym (dt, r) h

lemma nodup_keys_groupRows (today : Date) (rows : List CalRow) :
    (keysOf (groupRows today rows)).Nodup :=
  nodup_keys_groupRows_aux today rows [] (by simp [keysOf])

lemma glook_groupRows_aux (today : Date) (s : String) :
    ∀ (rows : List CalRow) (acc : List (String × List (Date × CalRow)))
      (v : List (Date × CalRow)),
      glook (rows.foldl
        (fun acc r =>
          match rowParse today r with
          | none => acc
          | some (sym, dt) => upd acc sym (dt, r))
        acc) s = some v →
      v = (glook acc s).getD [] ++ survRows today rows s
  | [], acc, v, h => by
    simp only [List.foldl_nil] at h
    simp [survRows, h]
  | r :: rest, acc, v, h => by
    simp only [List.foldl_cons] at h
    cases hp : rowParse today r with
    | none =>
      rw [hp] at h
      have := glook_groupRows_aux today s rest acc v h
      simpa [survRows, List.filterMap_cons, hp] using this
    | some p =>
      obtain ⟨sym, dt⟩ := p
      rw [hp] at h
      have hrec := glook_groupRows_aux today s rest (upd acc sym (dt, r)) v h
      rw [glook_upd] at hrec
      by_cases hs : s = sym
      · subst hs
        rw [if_pos rfl] at hrec
        simp only [survRows, List.filterMap_cons, hp, if_pos rfl]
        simp only [survRows] at hrec
        simp [hrec]
      · rw [if_neg hs] at hrec
        simp only [survRows, List.filterMap_cons, hp] at hrec ⊢
        rw [if_neg (fun hh => hs hh.symm)]
        exact hrec

lemma glook_groupRows (today : Date) (rows : List CalRow) (s : String)
    (v : List (Date × CalRow)) (h : glook (groupRows today rows) s = some v) :
    v = survRows today rows s := by
  have := glook_groupRows_aux today s rows [] v h
  simpa [glook] using this

/-! ### Structure of the reducer's output records -/

lemma glook_groupRows_mem (today : Date) (rows : List CalRow) (s : String)
    (items : List (Date × CalRow)) (h : (s, items) ∈ groupRows today rows) :
    items = survRows today rows s :=
  glook_groupRows today rows s items
    (glook_of_mem_of_nodupKeys (nodup_keys_groupRows today rows) h)

/-- Every entry of `build_index_all` arises from the sorted surviving rows of
its symbol, with the record fields computed from the head of the sorted
list. -/
lemma build_mem_sorted (today : Date) (ts : String) (rows : List CalRow)
    (s : String) (rec : EarnRec)
    (h : (s, rec) ∈ build_index_all today ts rows) :
    ∃ bd r0 tl, sortItems (survRows today rows s) = (bd, r0) :: tl ∧
      rec = { symbol := s
              nextEarningsDate := bd
              time := normalize_time_flag
                (match ((bd, r0) :: tl).filter (fun q => decide (q.1 = bd)) with
                 | [] => none
                 | q :: _ => q.2.time)
              finnhubCount := (((bd, r0) :: tl).filter (fun q => decide (q.1 = bd))).length
              lastUpdatedUtc := ts } := by
  obtain ⟨g, hg, hmk⟩ := List.mem_filterMap.mp h
  obtain ⟨k, items⟩ := g
  cases hsort : sortItems items with
  | nil =>
    simp only [mkOut, hsort] at hmk
    cases hmk
  | cons hd tl =>
    obtain ⟨bd, r0⟩ := hd
    simp only [mkOut, hsort] at hmk
    rw [Option.some.injEq, Prod.mk.injEq] at hmk
    obtain ⟨hks, hrec⟩ := hmk
    subst hks
    refine ⟨bd, r0, tl, ?_, hrec.symm⟩
    rw [← glook_groupRows_mem today rows _ items hg]
    exact hsort

/-- Surviving rows are never dated before the run date. -/
lemma rowParse_not_past {today : Date} {r : CalRow} {sym : String} {dt : Date}
    (h : rowParse today r = some (sym, dt)) : Date.le today dt := by
  unfold rowParse at h
  split at h
  · cases h
  · rename_i sym0 dt0 heq
    split at h
    · cases h
    · rename_i hlt
      injection h with h1
      injection h1 with h2 h3
      subst h3
      exact Date.le_of_not_lt hlt

lemma survRows_future (today : Date) (rows : List CalRow) (s : String) :
    ∀ p ∈ survRows today rows s, Date.le today p.1 := by
  intro p hp
  obtain ⟨p1, p2⟩ := p
  simp only [survRows, List.mem_filterMap] at hp
  obtain ⟨r, _, he⟩ := hp
  split at he
  · cases he
  · rename_i sym dt hrp
    split at he
    · injection he with h1
      injection h1 with h2 h3
      subst h2
      exact rowParse_not_past hrp
    · cases he

/-- **C1**: for every symbol in the reducer's output, `nextEarningsDate` is
the earliest date among that symbol's surviving rows, `time` is the
normalized flag of the first surviving row carrying that date in original
(fetch) order, and `finnhubCount` counts the surviving rows dated exactly on
that earliest date. -/
theorem build_index_all_spec (today : Date) (ts : String) (rows : List CalRow)
    (s : String) (rec : EarnRec)
    (h : (s, rec) ∈ build_index_all today ts rows) :
    survRows today rows s ≠ [] ∧
    rec.nextEarningsDate ∈ (survRows today rows s).map Prod.fst ∧
    (∀ p ∈ survRows today rows s, Date.le rec.nextEarningsDate p.1) ∧
    rec.finnhubCount = ((survRows today rows s).filter
      (fun q => decide (q.1 = rec.nextEarningsDate))).length ∧
    (∃ p rest, (survRows today rows s).filter
        (fun q => decide (q.1 = rec.nextEarningsDate)) = p :: rest ∧
      rec.time = normalize_time_flag p.2.time) := by
  obtain ⟨bd, r0, tl, hsort, hrec⟩ := build_mem_sorted today ts rows s rec h
  have hperm : List.Perm (sortItems (survRows today rows s)) (survRows today rows s) :=
    sortIns_perm itemLe _
  have hmem0 : (bd, r0) ∈ survRows today rows s := by
    apply hperm.mem_iff.mp
    rw [hsort]
    exact List.mem_cons_self _ _
  have hpw : List.Pairwise (fun a b => itemLe a b = true) ((bd, r0) :: tl) := by
    rw [← hsort]
    exact sortIns_pairwise itemLe_total itemLe_trans _
  rw [List.pairwise_cons] at hpw
  have hfil : (survRows today rows s).filter (fun q => decide (q.1 = bd)) =
      (bd, r0) :: tl.filter (fun q => decide (q.1 = bd)) := by
    rw [← sortItems_filter bd (survRows today rows s), hsort]
    simp [List.filter_cons]
  have hnext : rec.nextEarningsDate = bd := by rw [hrec]
  refine ⟨?_, ?_, ?_, ?_, ?_⟩
  · intro he
    rw [he] at hsort
    simp [sortItems, sortIns] at hsort
  · rw [hnext]
    exact List.mem_map.mpr ⟨(bd, r0), hmem0, rfl⟩
  · intro p hp
    rw [hnext]
    have hp' : p ∈ (bd, r0) :: tl := by
      rw [← hsort]
      exact hperm.mem_iff.mpr hp
    rcases List.mem_cons.mp hp' with rfl | hp''
    · exact Date.le_refl bd
    · have := hpw.1 p hp''
      simpa [itemLe, decide_eq_true_eq] using this
  · rw [hnext, hfil, hrec]
    simp [List.filter_cons]
  · refine ⟨(bd, r0), tl.filter (fun q => decide (q.1 = bd)), ?_, ?_⟩
    · rw [hnext, hfil]
    · rw [hrec]
      simp [List.filter_cons]

/-- Witness for C1: the concrete scenario from the specification (three AAPL
rows, two sharing the earliest date).  The reducer's output record for AAPL
— `nextEarningsDate` 2025-03-10, `time` "bmo", `finnhubCount` 2 — is a
member of the output (discharged by `decide`), and the theorem applied to it
yields the claimed properties with the concrete values substituted. -/
theorem build_index_all_spec_witness :
    survRows ⟨2025, 1, 1⟩
      [⟨some "AAPL", some "2025-03-10", some "bmo"⟩,
       ⟨some "AAPL", some "2025-03-10", some "amc"⟩,
       ⟨some "AAPL", some "2025-04-01", some "bmo"⟩] "AAPL" ≠ [] ∧
    (⟨2025, 3, 10⟩ : Date) ∈
      (survRows ⟨2025, 1, 1⟩
        [⟨some "AAPL", some "2025-03-10", some "bmo"⟩,
         ⟨some "AAPL", some "2025-03-10", some "amc"⟩,
         ⟨some "AAPL", some "2025-04-01", some "bmo"⟩] "AAPL").map Prod.fst ∧
    (∀ p ∈ survRows ⟨2025, 1, 1⟩
        [⟨some "AAPL", some "2025-03-10", some "bmo"⟩,
         ⟨some "AAPL", some "2025-03-10", some "amc"⟩,
         ⟨some "AAPL", some "2025-04-01", some "bmo"⟩] "AAPL",
      Date.le ⟨2025, 3, 10⟩ p.1) ∧
    (2 : Nat) = ((survRows ⟨2025, 1, 1⟩
        [⟨some "AAPL", some "2025-03-10", some "bmo"⟩,
         ⟨some "AAPL", some "2025-03-10", some "amc"⟩,
         ⟨some "AAPL", some "2025-04-01", some "bmo"⟩] "AAPL").filter
      (fun q => decide (q.1 = ⟨2025, 3, 10⟩))).length ∧
    (∃ p rest, (survRows ⟨2025, 1, 1⟩
        [⟨some "AAPL", some "2025-03-10", some "bmo"⟩,
         ⟨some "AAPL", some "2025-03-10", some "amc"⟩,
         ⟨some "AAPL", some "2025-04-01", some "bmo"⟩] "AAPL").filter
        (fun q => decide (q.1 = ⟨2025, 3, 10⟩)) = p :: rest ∧
      "bmo" = normalize_time_flag p.2.time) :=
  build_index_all_spec ⟨2025, 1, 1⟩ "TS"
    [⟨some "AAPL", some "2025-03-10", some "bmo"⟩,
     ⟨some "AAPL", some "2025-03-10", some "amc"⟩,
     ⟨some "AAPL", some "2025-04-01", some "bmo"⟩]
    "AAPL"
    { symbol := "AAPL", nextEarningsDate := ⟨2025, 3, 10⟩, time := "bmo",
      finnhubCount := 2, lastUpdatedUtc := "TS" }
    (by decide)

/-! ### C3: only forward-looking rows contribute -/

lemma rowParse_none_of_past {today : Date} {r : CalRow}
    (h : rowPast today r = true) : rowParse today r = none := by
  unfold rowPast at h
  split at h
  · cases h
  · rename_i sym dt heq
    unfold rowParse
    rw [heq]
    show (if Date.lt dt today then none else some (sym, dt)) = (none : Option (String × Date))
    rw [if_pos (of_decide_eq_true h)]

lemma foldl_group_filter (today : Date) :
    ∀ (rows : List CalRow) (acc : List (String × List (Date × CalRow))),
      List.foldl
        (fun acc r =>
          match rowParse today r with
          | none => acc
          | some (sym, dt) => upd acc sym (dt, r))
        acc (rows.filter (fun r => ! rowPast today r)) =
      List.foldl
        (fun acc r =>
          match rowParse today r with
          | none => acc
          | some (sym, dt) => upd acc sym (dt, r))
        acc rows
  | [], _ => rfl
  | r :: rest, acc => by
    rw [List.filter_cons, List.foldl_cons]
    by_cases hp : rowPast today r
    · rw [if_neg (by simp [hp])]
      have hnone : rowParse today r = none := rowParse_none_of_past hp
      have hstep : (match rowParse today r with
          | none => acc
          | some (sym, dt) => upd acc sym (dt, r)) = acc := by rw [hnone]
      rw [hstep]
      exact foldl_group_filter today rest acc
    · rw [if_pos (by simp [hp])]
      rw [List.foldl_cons]
      exact foldl_group_filter today rest _

lemma groupRows_filter_past (today : Date) (rows : List CalRow) :
    groupRows today (rows.filter (fun r => ! rowPast today r)) =
      groupRows today rows :=
  foldl_group_filter today rows []

/-- **C3**: every record of the reducer's output is dated on or after the run
date, and rows dated strictly before the run date never contribute — removing
them leaves the output unchanged, for any input order (the input list is
universally quantified). -/
theorem build_index_all_future_only (today : Date) (ts : String) (rows : List CalRow) :
    (∀ s rec, (s, rec) ∈ build_index_all today ts rows →
      Date.le today rec.nextEarningsDate) ∧
    build_index_all today ts (rows.filter (fun r => ! rowPast today r)) =
      build_index_all today ts rows := by
  constructor
  · intro s rec h
    obtain ⟨bd, r0, tl, hsort, hrec⟩ := build_mem_sorted today ts rows s rec h
    have hmem0 : (bd, r0) ∈ survRows today rows s := by
      apply (sortIns_perm itemLe (survRows today rows s)).mem_iff.mp
      rw [show sortIns itemLe (survRows today rows s) = sortItems (survRows today rows s) from rfl]
      rw [hsort]
      exact List.mem_cons_self _ _
    have := survRows_future today rows s (bd, r0) hmem0
    rw [hrec]
    exact this
  · unfold build_index_all
    rw [groupRows_filter_past]

/-- Witness for C3 at a concrete input containing one past row and one future
row. -/
theorem build_index_all_future_only_witness :
    Date.le ⟨2025, 1, 1⟩
      (({ symbol := "AAPL", nextEarningsDate := ⟨2025, 3, 10⟩, time := "tbd",
          finnhubCount := 1, lastUpdatedUtc := "TS" } : EarnRec).nextEarningsDate) ∧
    build_index_all ⟨2025, 1, 1⟩ "TS"
      (([⟨some "AAPL", some "2020-01-01", some "bmo"⟩,
         ⟨some "AAPL", some "2025-03-10", none⟩] : List CalRow).filter
        (fun r => ! rowPast ⟨2025, 1, 1⟩ r)) =
      build_index_all ⟨2025, 1, 1⟩ "TS"
        [⟨some "AAPL", some "2020-01-01", some "bmo"⟩,
         ⟨some "AAPL", some "2025-03-10", none⟩] :=
  ⟨(build_index_all_future_only ⟨2025, 1, 1⟩ "TS"
      [⟨some "AAPL", some "2020-01-01", some "bmo"⟩,
       ⟨some "AAPL", some "2025-03-10", none⟩]).1 "AAPL"
      { symbol := "AAPL", nextEarningsDate := ⟨2025, 3, 10⟩, time := "tbd",
        finnhubCount := 1, lastUpdatedUtc := "TS" } (by decide),
   (build_index_all_future_only ⟨2025, 1, 1⟩ "TS"
      [⟨some "AAPL", some "2020-01-01", some "bmo"⟩,
       ⟨some "AAPL", some "2025-03-10", none⟩]).2⟩

/-! ### C4: determinism of the reducer up to the `lastUpdatedUtc` stamp -/

/-- The reducer's output at two different `utcnow` readings agrees after
erasing the `lastUpdatedUtc` stamps. -/
lemma build_index_all_eraseTs (today : Date) (ts1 ts2 : String) (rows : List CalRow) :
    (build_index_all today ts1 rows).map eraseTs =
      (build_index_all today ts2 rows).map eraseTs := by
  unfold build_index_all
  rw [List.map_filterMap, List.map_filterMap]
  apply List.filterMap_congr
  intro g _
  cases hsort : sortItems g.2 with
  | nil => simp [mkOut, hsort]
  | cons hd tl => simp [mkOut, hsort, eraseTs]

/-- **C4 (amended)**: the Event Reducer is a pure function of the raw rows,
the run date, and the `utcnow` reading: two runs over identical rows agree
byte-for-byte whenever they observe the same timestamp, and in general agree
on everything except the `lastUpdatedUtc` stamps. -/
theorem build_index_all_deterministic (today : Date) (ts1 ts2 : String)
    (rows : List CalRow) :
    (build_index_all today ts1 rows).map eraseTs =
      (build_index_all today ts2 rows).map eraseTs ∧
    (ts1 = ts2 →
      serializeIndex (build_index_all today ts1 rows) =
        serializeIndex (build_index_all today ts2 rows)) := by
  refine ⟨build_index_all_eraseTs today ts1 ts2 rows, ?_⟩
  intro h
  rw [h]

/-- Witness for C4 (amended) at a concrete input. -/
theorem build_index_all_deterministic_witness :
    (build_index_all ⟨2025, 1, 1⟩ "2025-06-01T00:00:00Z"
        [⟨some "AAPL", some "2025-03-10", some "bmo"⟩]).map eraseTs =
      (build_index_all ⟨2025, 1, 1⟩ "2025-06-01T00:00:00Z"
        [⟨some "AAPL", some "2025-03-10", some "bmo"⟩]).map eraseTs ∧
    serializeIndex (build_index_all ⟨2025, 1, 1⟩ "2025-06-01T00:00:00Z"
        [⟨some "AAPL", some "2025-03-10", some "bmo"⟩]) =
      serializeIndex (build_index_all ⟨2025, 1, 1⟩ "2025-06-01T00:00:00Z"
        [⟨some "AAPL", some "2025-03-10", some "bmo"⟩]) :=
  ⟨(build_index_all_deterministic ⟨2025, 1, 1⟩ "2025-06-01T00:00:00Z"
      "2025-06-01T00:00:00Z" [⟨some "AAPL", some "2025-03-10", some "bmo"⟩]).1,
   (build_index_all_deterministic ⟨2025, 1, 1⟩ "2025-06-01T00:00:00Z"
      "2025-06-01T00:00:00Z" [⟨some "AAPL", some "2025-03-10", some "bmo"⟩]).2 rfl⟩

/-- **C4 (counterexample)**: two runs of the reducer on identical raw-row
input whose ambient `utcnow` readings differ produce serialized outputs that
are *not* byte-identical — the `lastUpdatedUtc` stamp embedded in every
record changes. -/
theorem build_index_all_not_idempotent :
    serializeIndex (build_index_all ⟨2025, 1, 1⟩ "2025-06-01T00:00:00Z"
        [⟨some "AAPL", some "2025-03-10", some "bmo"⟩]) ≠
      serializeIndex (build_index_all ⟨2025, 1, 1⟩ "2025-06-01T00:00:01Z"
        [⟨some "AAPL", some "2025-03-10", some "bmo"⟩]) := by
  decide

/-! ### C7 / C8: the symbol universe provider -/

lemma strLeB_total (a b : String) : strLeB a b = true ∨ strLeB b a = true := by
  simp only [strLeB, decide_eq_true_eq]
  exact le_total a b

lemma strLeB_trans (a b c : String) (h1 : strLeB a b = true) (h2 : strLeB b c = true) :
    strLeB a c = true := by
  simp only [strLeB, decide_eq_true_eq] at *
  exact le_trans h1 h2

lemma pySortStr_sorted (l : List String) :
    List.Pairwise (fun a b => strLeB a b = true) (pySortStr l) :=
  sortIns_pairwise strLeB_total strLeB_trans l

lemma pySortStr_perm (l : List String) : List.Perm (pySortStr l) l :=
  sortIns_perm strLeB l

/-- `sorted` is a canonical form: permuted inputs sort to the same list.
This is exactly how the source compares exchange lists order-insensitively
(`sorted(cached_ex) == sorted(exchanges)`, line 100). -/
lemma pySortStr_eq_of_perm {l1 l2 : List String} (h : List.Perm l1 l2) :
    pySortStr l1 = pySortStr l2 := by
  haveI : IsAntisymm String (fun a b => strLeB a b = true) :=
    ⟨fun a b h1 h2 => le_antisymm
      (by simpa [strLeB] using h1) (by simpa [strLeB] using h2)⟩
  exact List.eq_of_perm_of_sorted
    ((pySortStr_perm l1).trans (h.trans (pySortStr_perm l2).symm))
    (pySortStr_sorted l1) (pySortStr_sorted l2)

/-- The cache-hit branch of `load_symbols_cached`, with the condition stated
exactly as the source checks it (sorted exchange lists equal). -/
lemma load_symbols_cached_hit_eq (env : Env) (fs : FS) (exList : List String)
    (ttlDays : ℚ) (c : SymCacheFile) (hc : fs.symCache = some c)
    (hage : (env.now - c.mtime) / 86400 < ttlDays)
    (hsorted : pySortStr c.exchanges = pySortStr exList) :
    load_symbols_cached env fs exList ttlDays = (c.symbols.toFinset, fs, []) := by
  unfold load_symbols_cached
  rw [hc]
  show (if (env.now - c.mtime) / 86400 < ttlDays ∧
      pySortStr c.exchanges = pySortStr exList then
      (c.symbols.toFinset, fs, ([] : List Eff))
    else symRefresh env fs exList) = (c.symbols.toFinset, fs, [])
  rw [if_pos ⟨hage, hsorted⟩]

/-- **C7**: when a cached universe exists, is younger than the staleness
window, and was generated from the same exchange identifiers up to order,
the provider returns the cached symbol set with the file system unchanged
and an empty effect trace — no network access, no cache rewrite. -/
theorem load_symbols_cached_hit (env : Env) (fs : FS) (exList : List String)
    (ttlDays : ℚ) (c : SymCacheFile) (hc : fs.symCache = some c)
    (hage : (env.now - c.mtime) / 86400 < ttlDays)
    (hperm : List.Perm c.exchanges exList) :
    load_symbols_cached env fs exList ttlDays = (c.symbols.toFinset, fs, []) :=
  load_symbols_cached_hit_eq env fs exList ttlDays c hc hage
    (pySortStr_eq_of_perm hperm)

/-- Witness for C7: a young cache for `US, DE` answers a request for
`DE, US` without network access or writes. -/
theorem load_symbols_cached_hit_witness :
    load_symbols_cached sampleEnv cachedSymFS ["DE", "US"] 7 =
      ((["AAPL", "SAP"] : List String).toFinset, cachedSymFS, []) :=
  load_symbols_cached_hit sampleEnv cachedSymFS ["DE", "US"] 7
    ⟨["US", "DE"], "G", ["AAPL", "SAP"], 990000⟩ rfl
    (by norm_num [sampleEnv]) (by decide)

lemma fetchSymsGo_syms_append (oracle : String → Option (List SymRow)) :
    ∀ pre post, (fetchSymsGo oracle (pre ++ post)).1 =
      (fetchSymsGo oracle pre).1 ++ (fetchSymsGo oracle post).1
  | [], post => by simp [fetchSymsGo]
  | ex :: pre, post => by
    simp only [List.cons_append, fetchSymsGo]
    by_cases he : pyStrip ex = ""
    · rw [if_pos he, if_pos he]
      exact fetchSymsGo_syms_append oracle pre post
    · rw [if_neg he, if_neg he]
      simp only [List.append_eq]
      rw [fetchSymsGo_syms_append oracle pre post, List.append_assoc]

lemma fetchSymsGo_failed (oracle : String → Option (List SymRow)) (ex : String)
    (h : oracle (pyStrip ex) = none) : (fetchSymsGo oracle [ex]).1 = [] := by
  simp only [fetchSymsGo]
  by_cases he : pyStrip ex = ""
  · rw [if_pos he]
  · rw [if_neg he]
    simp [h, fetchSymsGo]

/-- **C8**: a failing per-exchange fetch is non-fatal — it contributes
nothing and the remaining exchanges still produce the (partial) universe;
the returned symbol list is sorted and duplicate-free; and the refresh path
persists the symbols together with the exchange list and the generation
timestamp before returning exactly that symbol set. -/
theorem fetch_symbols_degraded (env : Env) (fs : FS)
    (oracle : String → Option (List SymRow)) (exList : List String) :
    (∀ pre post ex, oracle (pyStrip ex) = none →
      (fetch_symbols_from_exchanges oracle (pre ++ ex :: post)).1 =
        (fetch_symbols_from_exchanges oracle (pre ++ post)).1) ∧
    List.Pairwise (fun a b => strLeB a b = true)
      (fetch_symbols_from_exchanges oracle exList).1 ∧
    (fetch_symbols_from_exchanges oracle exList).1.Nodup ∧
    (symRefresh env fs exList).2.1.symCache =
      some ⟨exList, env.utcIso,
        (fetch_symbols_from_exchanges env.fetchSym exList).1, env.now⟩ ∧
    Eff.writeSymCache exList env.utcIso
        (fetch_symbols_from_exchanges env.fetchSym exList).1 ∈
      (symRefresh env fs exList).2.2 ∧
    (symRefresh env fs exList).1 =
      (fetch_symbols_from_exchanges env.fetchSym exList).1.toFinset := by
  refine ⟨?_, ?_, ?_, rfl, ?_, rfl⟩
  · intro pre post ex h
    show pySortedSet (fetchSymsGo oracle (pre ++ ex :: post)).1 =
      pySortedSet (fetchSymsGo oracle (pre ++ post)).1
    have h1 : (fetchSymsGo oracle (pre ++ ex :: post)).1 =
        (fetchSymsGo oracle pre).1 ++
          ((fetchSymsGo oracle [ex]).1 ++ (fetchSymsGo oracle post).1) := by
      rw [show pre ++ ex :: post = pre ++ ([ex] ++ post) by simp]
      rw [fetchSymsGo_syms_append oracle pre ([ex] ++ post),
        fetchSymsGo_syms_append oracle [ex] post]
    rw [h1, fetchSymsGo_failed oracle ex h,
      fetchSymsGo_syms_append oracle pre post]
    simp
  · exact pySortStr_sorted _
  · have hperm := pySortStr_perm (fetchSymsGo oracle exList).1.dedup
    exact hperm.nodup_iff.mpr (List.nodup_dedup _)
  · exact List.mem_append_right _ (List.mem_singleton.mpr rfl)

/-- Witness for C8: with the `US` listing succeeding (one stock, one ETF)
and the `DE` listing failing, the refresh produces the partial universe
`[\"AAPL\"]`, and the failing exchange contributes nothing. -/
theorem fetch_symbols_degraded_witness :
    (fetch_symbols_from_exchanges sampleEnv2.fetchSym (["US"] ++ "DE" :: [])).1 =
      (fetch_symbols_from_exchanges sampleEnv2.fetchSym (["US"] ++ [])).1 ∧
    (symRefresh sampleEnv2 emptyFS ["US", "DE"]).1 =
      (fetch_symbols_from_exchanges sampleEnv2.fetchSym ["US", "DE"]).1.toFinset :=
  ⟨(fetch_symbols_degraded sampleEnv2 emptyFS sampleEnv2.fetchSym ["US", "DE"]).1
      ["US"] [] "DE" (by decide),
   (fetch_symbols_degraded sampleEnv2 emptyFS sampleEnv2.fetchSym
      ["US", "DE"]).2.2.2.2.2⟩

/-! ### C5 / C6 / C10: the orchestrator -/

lemma load_symbols_cached_miss (env : Env) (fs : FS) (exList : List String)
    (ttlDays : ℚ) (h : ¬ symCacheHit env fs exList ttlDays) :
    load_symbols_cached env fs exList ttlDays = symRefresh env fs exList := by
  unfold load_symbols_cached
  cases hsc : fs.symCache with
  | none => rfl
  | some c =>
    show (if (env.now - c.mtime) / 86400 < ttlDays ∧
        pySortStr c.exchanges = pySortStr exList then
        (c.symbols.toFinset, fs, ([] : List Eff))
      else symRefresh env fs exList) = symRefresh env fs exList
    rw [if_neg]
    intro hcond
    exact h ⟨c, hsc, hcond.1, hcond.2⟩

lemma load_symbols_cached_earnings (env : Env) (fs : FS) (exList : List String)
    (ttlDays : ℚ) :
    (load_symbols_cached env fs exList ttlDays).2.1.earnings = fs.earnings := by
  by_cases hh : symCacheHit env fs exList ttlDays
  · obtain ⟨c, hsc, h1, h2⟩ := hh
    rw [load_symbols_cached_hit_eq env fs exList ttlDays c hsc h1 h2]
  · rw [load_symbols_cached_miss env fs exList ttlDays hh]
    rfl

/-- Closed form of the non-fresh branch of `main`. -/
lemma mainRun_not_fresh (env : Env) (fs : FS) (h : ¬ freshGate env fs) :
    mainRun env fs =
      ({ (if newJsonOf env fs ≠ oldJsonOf fs then
            { (load_symbols_cached env fs (exListOf env) 7).2.1 with
              earnings := some ⟨newJsonOf env fs, some (idxOf env fs).length, env.now⟩ }
          else (load_symbols_cached env fs (exListOf env) 7).2.1) with
         stats := some (statsOf env fs), lastRun := some env.utcFmt },
       (load_symbols_cached env fs (exListOf env) 7).2.2 ++
         (month_ranges (fromDateOf env) (toDateOf env)).map
           (fun p => Eff.netCal p.1 p.2) ++
         (if newJsonOf env fs ≠ oldJsonOf fs then
            [Eff.writeEarnings (newJsonOf env fs)] else []) ++
         [Eff.writeStats (statsOf env fs), Eff.writeLastRun env.utcFmt]) := by
  unfold mainRun
  rw [if_neg h]
  rfl

lemma fetchSymsGo_effs (oracle : String → Option (List SymRow)) :
    ∀ l e, e ∈ (fetchSymsGo oracle l).2 → ∃ ex, e = Eff.netSym ex
  | [], e, he => absurd he (List.not_mem_nil e)
  | ex :: rest, e, he => by
    simp only [fetchSymsGo] at he
    by_cases hex : pyStrip ex = ""
    · rw [if_pos hex] at he
      exact fetchSymsGo_effs oracle rest e he
    · rw [if_neg hex] at he
      replace he : e ∈ Eff.netSym (pyStrip ex) :: (fetchSymsGo oracle rest).2 := he
      rcases List.mem_cons.mp he with rfl | he'
      · exact ⟨_, rfl⟩
      · exact fetchSymsGo_effs oracle rest e he'

lemma symRefresh_effs (env : Env) (fs : FS) (exList : List String) :
    ∀ e ∈ (symRefresh env fs exList).2.2,
      (∃ ex, e = Eff.netSym ex) ∨ ∃ exl g syms, e = Eff.writeSymCache exl g syms := by
  intro e he
  replace he : e ∈ (fetch_symbols_from_exchanges env.fetchSym exList).2 ++
      [Eff.writeSymCache exList env.utcIso
        (fetch_symbols_from_exchanges env.fetchSym exList).1] := he
  rcases List.mem_append.mp he with h1 | h2
  · left
    exact fetchSymsGo_effs env.fetchSym exList e h1
  · right
    have h3 := List.mem_singleton.mp h2
    subst h3
    exact ⟨_, _, _, rfl⟩

lemma load_effs (env : Env) (fs : FS) (exList : List String) (ttlDays : ℚ) :
    ∀ e ∈ (load_symbols_cached env fs exList ttlDays).2.2,
      (∃ ex, e = Eff.netSym ex) ∨ ∃ exl g syms, e = Eff.writeSymCache exl g syms := by
  intro e he
  by_cases hh : symCacheHit env fs exList ttlDays
  · obtain ⟨c, hsc, h1, h2⟩ := hh
    rw [load_symbols_cached_hit_eq env fs exList ttlDays c hsc h1 h2] at he
    exact absurd he (List.not_mem_nil e)
  · rw [load_symbols_cached_miss env fs exList ttlDays hh] at he
    exact symRefresh_effs env fs exList e he

lemma mainRun_writeEarnings_mem (env : Env) (fs : FS) (h : ¬ freshGate env fs)
    (sjson : String) :
    Eff.writeEarnings sjson ∈ (mainRun env fs).2 ↔
      (sjson = newJsonOf env fs ∧ newJsonOf env fs ≠ oldJsonOf fs) := by
  rw [mainRun_not_fresh env fs h]
  constructor
  · intro hmem
    rcases List.mem_append.mp hmem with hmem1 | hD
    · rcases List.mem_append.mp hmem1 with hmem2 | hC
      · rcases List.mem_append.mp hmem2 with hA | hB
        · rcases load_effs env fs (exListOf env) 7 _ hA with ⟨ex, hex⟩ | ⟨a, b, c, habc⟩
          · cases hex
          · cases habc
        · obtain ⟨p, _, hp⟩ := List.mem_map.mp hB
          cases hp
      · by_cases hj : newJsonOf env fs ≠ oldJsonOf fs
        · rw [if_pos hj] at hC
          have := List.mem_singleton.mp hC
          injection this with h1
          exact ⟨h1, hj⟩
        · rw [if_neg hj] at hC
          exact absurd hC (List.not_mem_nil _)
    · rcases List.mem_cons.mp hD with h1 | h2
      · cases h1
      · have := List.mem_singleton.mp h2
        cases this
  · rintro ⟨rfl, hj⟩
    apply List.mem_append.mpr
    left
    apply List.mem_append.mpr
    right
    rw [if_pos hj]
    exact List.mem_singleton.mpr rfl

/-- **C5**: on a full (non-fresh) run, the freshly computed index is
serialized deterministically and written if and only if the bytes differ
from the previously persisted content (a missing file comparing as `""`),
while the run-metadata document and the last-run marker are written
unconditionally. -/
theorem mainRun_change_detection (env : Env) (fs : FS) (h : ¬ freshGate env fs) :
    (Eff.writeEarnings (newJsonOf env fs) ∈ (mainRun env fs).2 ↔
      newJsonOf env fs ≠ oldJsonOf fs) ∧
    (∀ sjson, Eff.writeEarnings sjson ∈ (mainRun env fs).2 →
      sjson = newJsonOf env fs) ∧
    (newJsonOf env fs = oldJsonOf fs →
      (mainRun env fs).1.earnings = fs.earnings) ∧
    (newJsonOf env fs ≠ oldJsonOf fs →
      (mainRun env fs).1.earnings =
        some ⟨newJsonOf env fs, some (idxOf env fs).length, env.now⟩) ∧
    Eff.writeStats (statsOf env fs) ∈ (mainRun env fs).2 ∧
    Eff.writeLastRun env.utcFmt ∈ (mainRun env fs).2 ∧
    (mainRun env fs).1.stats = some (statsOf env fs) ∧
    (mainRun env fs).1.lastRun = some env.utcFmt := by
  refine ⟨?_, ?_, ?_, ?_, ?_, ?_, ?_, ?_⟩
  · rw [mainRun_writeEarnings_mem env fs h (newJsonOf env fs)]
    simp
  · intro sjson hmem
    exact ((mainRun_writeEarnings_mem env fs h sjson).mp hmem).1
  · intro hj
    rw [mainRun_not_fresh env fs h]
    have hne : ¬ (newJsonOf env fs ≠ oldJsonOf fs) := fun hx => hx hj
    show (if newJsonOf env fs ≠ oldJsonOf fs then _ else _ : FS).earnings = fs.earnings
    rw [if_neg hne]
    exact load_symbols_cached_earnings env fs (exListOf env) 7
  · intro hj
    rw [mainRun_not_fresh env fs h]
    show (if newJsonOf env fs ≠ oldJsonOf fs then _ else _ : FS).earnings = _
    rw [if_pos hj]
  · rw [mainRun_not_fresh env fs h]
    apply List.mem_append.mpr
    right
    exact List.mem_cons_self _ _
  · rw [mainRun_not_fresh env fs h]
    apply List.mem_append.mpr
    right
    exact List.mem_cons.mpr (Or.inr (List.mem_singleton.mpr rfl))
  · rw [mainRun_not_fresh env fs h]
  · rw [mainRun_not_fresh env fs h]

/-- Witness for C5 at a concrete stale state (the write fires because the
old content differs). -/
theorem mainRun_change_detection_witness :
    (Eff.writeEarnings (newJsonOf sampleEnv staleFS) ∈ (mainRun sampleEnv staleFS).2 ↔
      newJsonOf sampleEnv staleFS ≠ oldJsonOf staleFS) ∧
    (∀ sjson, Eff.writeEarnings sjson ∈ (mainRun sampleEnv staleFS).2 →
      sjson = newJsonOf sampleEnv staleFS) ∧
    (newJsonOf sampleEnv staleFS = oldJsonOf staleFS →
      (mainRun sampleEnv staleFS).1.earnings = staleFS.earnings) ∧
    (newJsonOf sampleEnv staleFS ≠ oldJsonOf staleFS →
      (mainRun sampleEnv staleFS).1.earnings =
        some ⟨newJsonOf sampleEnv staleFS, some (idxOf sampleEnv staleFS).length,
          sampleEnv.now⟩) ∧
    Eff.writeStats (statsOf sampleEnv staleFS) ∈ (mainRun sampleEnv staleFS).2 ∧
    Eff.writeLastRun sampleEnv.utcFmt ∈ (mainRun sampleEnv staleFS).2 ∧
    (mainRun sampleEnv staleFS).1.stats = some (statsOf sampleEnv staleFS) ∧
    (mainRun sampleEnv staleFS).1.lastRun = some sampleEnv.utcFmt :=
  mainRun_change_detection sampleEnv staleFS
    (by norm_num [freshGate, earnAge, sampleEnv, staleFS])

/-- **C6**: when the persisted index artifact is younger than the TTL, the
run performs no network access and no universe loading, leaves the index and
the symbol cache untouched, reports the existing artifact's record count,
and rewrites exactly the run-metadata document and the last-run marker. -/
theorem mainRun_fresh_skip (env : Env) (fs : FS) (ef : EFile)
    (h1 : fs.earnings = some ef)
    (h2 : (env.now - ef.mtime) / 3600 < env.ttlHours) :
    mainRun env fs =
      ({ fs with stats := some (mkStats env (ef.loadCount.getD 0) none none none),
                 lastRun := some env.utcFmt },
       [Eff.writeStats (mkStats env (ef.loadCount.getD 0) none none none),
        Eff.writeLastRun env.utcFmt]) ∧
    (mainRun env fs).1.earnings = fs.earnings ∧
    (mainRun env fs).1.symCache = fs.symCache := by
  have hfresh : freshGate env fs := by
    unfold freshGate earnAge
    rw [h1]
    exact h2
  have hmain : mainRun env fs =
      ({ fs with stats := some (mkStats env (ef.loadCount.getD 0) none none none),
                 lastRun := some env.utcFmt },
       [Eff.writeStats (mkStats env (ef.loadCount.getD 0) none none none),
        Eff.writeLastRun env.utcFmt]) := by
    unfold mainRun
    rw [if_pos hfresh, h1]
  refine ⟨hmain, ?_, ?_⟩ <;> rw [hmain]

/-- Witness for C6 at a concrete fresh state. -/
theorem mainRun_fresh_skip_witness :
    mainRun sampleEnv freshFS =
      ({ freshFS with
          stats := some (mkStats sampleEnv
            ((⟨"CONTENT", some 5, 999000⟩ : EFile).loadCount.getD 0) none none none),
          lastRun := some sampleEnv.utcFmt },
       [Eff.writeStats (mkStats sampleEnv
          ((⟨"CONTENT", some 5, 999000⟩ : EFile).loadCount.getD 0) none none none),
        Eff.writeLastRun sampleEnv.utcFmt]) ∧
    (mainRun sampleEnv freshFS).1.earnings = freshFS.earnings ∧
    (mainRun sampleEnv freshFS).1.symCache = freshFS.symCache :=
  mainRun_fresh_skip sampleEnv freshFS ⟨"CONTENT", some 5, 999000⟩ rfl
    (by norm_num [sampleEnv])

lemma fetchSymsGo_all_fail (oracle : String → Option (List SymRow))
    (hfail : ∀ ex, oracle ex = none) :
    ∀ l, (fetchSymsGo oracle l).1 = []
  | [] => rfl
  | ex :: rest => by
    simp only [fetchSymsGo]
    by_cases hex : pyStrip ex = ""
    · rw [if_pos hex]
      exact fetchSymsGo_all_fail oracle hfail rest
    · rw [if_neg hex]
      show (match oracle (pyStrip ex) with
        | none => []
        | some rows => rows.filterMap goodSym) ++ (fetchSymsGo oracle rest).1 = []
      rw [hfail (pyStrip ex)]
      show [] ++ (fetchSymsGo oracle rest).1 = []
      rw [List.nil_append]
      exact fetchSymsGo_all_fail oracle hfail rest

/-- **C10**: if every per-exchange symbol fetch fails during a universe
refresh, the provider returns the empty universe and the run persists an
empty-symbol cache artifact anyway; the run then filters out every calendar
row, computes an empty index, and — the previous artifact being non-empty —
overwrites it with the serialized empty mapping. -/
theorem mainRun_degraded_overwrite (env : Env) (fs : FS)
    (hfail : ∀ ex, env.fetchSym ex = none)
    (hmiss : ¬ symCacheHit env fs (exListOf env) 7)
    (hfresh : ¬ freshGate env fs)
    (hnonempty : oldJsonOf fs ≠ serializeIndex []) :
    universeOf env fs = ∅ ∧
    (mainRun env fs).1.symCache =
      some ⟨exListOf env, env.utcIso, [], env.now⟩ ∧
    filteredRowsOf env fs = [] ∧
    idxOf env fs = [] ∧
    Eff.writeEarnings (serializeIndex []) ∈ (mainRun env fs).2 ∧
    (mainRun env fs).1.earnings = some ⟨serializeIndex [], some 0, env.now⟩ := by
  have hsyms : (fetch_symbols_from_exchanges env.fetchSym (exListOf env)).1 = [] := by
    show pySortedSet (fetchSymsGo env.fetchSym (exListOf env)).1 = []
    rw [fetchSymsGo_all_fail env.fetchSym hfail (exListOf env)]
    rfl
  have huniv : universeOf env fs = ∅ := by
    unfold universeOf
    rw [load_symbols_cached_miss env fs (exListOf env) 7 hmiss]
    show (fetch_symbols_from_exchanges env.fetchSym (exListOf env)).1.toFinset = ∅
    rw [hsyms]
    rfl
  have hfil : filteredRowsOf env fs = [] := by
    unfold filteredRowsOf
    rw [huniv]
    simp
  have hidx : idxOf env fs = [] := by
    unfold idxOf
    rw [hfil]
    rfl
  have hnew : newJsonOf env fs = serializeIndex [] := by
    unfold newJsonOf
    rw [hidx]
  have hj : newJsonOf env fs ≠ oldJsonOf fs := by
    rw [hnew]
    exact fun hx => hnonempty hx.symm
  refine ⟨huniv, ?_, hfil, hidx, ?_, ?_⟩
  · rw [mainRun_not_fresh env fs hfresh]
    show (if newJsonOf env fs ≠ oldJsonOf fs then _ else _ : FS).symCache = _
    rw [if_pos hj]
    show (load_symbols_cached env fs (exListOf env) 7).2.1.symCache = _
    rw [load_symbols_cached_miss env fs (exListOf env) 7 hmiss]
    show some (⟨exListOf env, env.utcIso,
      (fetch_symbols_from_exchanges env.fetchSym (exListOf env)).1, env.now⟩ : SymCacheFile) = _
    rw [hsyms]
  · rw [← hnew]
    exact (mainRun_writeEarnings_mem env fs hfresh (newJsonOf env fs)).mpr ⟨rfl, hj⟩
  · rw [mainRun_not_fresh env fs hfresh]
    show (if newJsonOf env fs ≠ oldJsonOf fs then _ else _ : FS).earnings = _
    rw [if_pos hj]
    show some (⟨newJsonOf env fs, some (idxOf env fs).length, env.now⟩ : EFile) = _
    rw [hnew, hidx]
    rfl

/-- Witness for C10: all symbol fetches fail, the symbol cache is absent, the
old artifact is stale and non-empty. -/
theorem mainRun_degraded_overwrite_witness :
    universeOf sampleEnv staleFS = ∅ ∧
    (mainRun sampleEnv staleFS).1.symCache =
      some ⟨exListOf sampleEnv, sampleEnv.utcIso, [], sampleEnv.now⟩ ∧
    filteredRowsOf sampleEnv staleFS = [] ∧
    idxOf sampleEnv staleFS = [] ∧
    Eff.writeEarnings (serializeIndex []) ∈ (mainRun sampleEnv staleFS).2 ∧
    (mainRun sampleEnv staleFS).1.earnings =
      some ⟨serializeIndex [], some 0, sampleEnv.now⟩ :=
  mainRun_degraded_overwrite sampleEnv staleFS (fun _ => rfl)
    (by simp [symCacheHit, staleFS])
    (by norm_num [freshGate, earnAge, sampleEnv, staleFS])
    (by decide)

/-! ### C2: the month partitioner produces a gap-free chain -/

lemma daysInMonth_pos (y m : Nat) : 1 ≤ daysInMonth y m := by
  unfold daysInMonth
  split
  · split <;> omega
  · split <;> omega

lemma daysInMonth_12 (y : Nat) : daysInMonth y 12 = 31 := rfl

lemma date_le_of_mi_lt (y m d y' m' d' : Nat) (hm : m ≤ 12) (hm' : 1 ≤ m')
    (hm'2 : m' ≤ 12) (h : y * 12 + m < y' * 12 + m') :
    Date.le ⟨y, m, d⟩ ⟨y', m', d'⟩ := by
  show y < y' ∨ (y = y' ∧ (m < m' ∨ (m = m' ∧ d ≤ d')))
  omega

lemma dmax_le (a b c : Date) (h1 : Date.le a c) (h2 : Date.le b c) :
    Date.le (dmax a b) c := by
  unfold dmax
  split <;> assumption

lemma dmax_of_le (a b : Date) (h : Date.le b a) : dmax a b = a := by
  unfold dmax
  rw [if_pos h]

lemma dmin_eq_left (a b : Date) (h : Date.le a b) : dmin a b = a := by
  unfold dmin
  rw [if_pos h]

lemma dmin_last (ed : Date) (he : ValidDate ed) :
    dmin ⟨ed.year, ed.month, daysInMonth ed.year ed.month⟩ ed = ed := by
  obtain ⟨ey, em, edd⟩ := ed
  obtain ⟨_, _, _, hd2⟩ := he
  have hd2' : edd ≤ daysInMonth ey em := hd2
  unfold dmin
  by_cases h : Date.le ⟨ey, em, daysInMonth ey em⟩ ⟨ey, em, edd⟩
  · rw [if_pos h]
    have h' : ey < ey ∨ (ey = ey ∧ (em < em ∨ (em = em ∧ daysInMonth ey em ≤ edd))) := h
    have : daysInMonth ey em = edd := by omega
    rw [this]
  · rw [if_neg h]

/-- The first day of a month, maximized with a valid start date lying in or
before that month, stays within that month. -/
lemma dmax_first (cy cm : Nat) (sd : Date) (hs : ValidDate sd)
    (h1 : 1 ≤ cm) (h2 : cm ≤ 12) (hmi : monthIndex sd ≤ cy * 12 + cm) :
    (dmax ⟨cy, cm, 1⟩ sd).year = cy ∧ (dmax ⟨cy, cm, 1⟩ sd).month = cm ∧
    1 ≤ (dmax ⟨cy, cm, 1⟩ sd).day ∧
    (dmax ⟨cy, cm, 1⟩ sd).day ≤ daysInMonth cy cm := by
  unfold dmax
  by_cases h : Date.le sd ⟨cy, cm, 1⟩
  · rw [if_pos h]
    exact ⟨rfl, rfl, le_refl 1, daysInMonth_pos cy cm⟩
  · rw [if_neg h]
    have hlt := Date.lt_of_not_le h
    obtain ⟨sy, sm, sdd⟩ := sd
    obtain ⟨hm1, hm2, hd1, hd2⟩ := hs
    have hm1' : 1 ≤ sm := hm1
    have hm2' : sm ≤ 12 := hm2
    have hd1' : 1 ≤ sdd := hd1
    have hd2' : sdd ≤ daysInMonth sy sm := hd2
    have hlt' : cy < sy ∨ (cy = sy ∧ (cm < sm ∨ (cm = sm ∧ 1 < sdd))) := hlt
    have hmi' : sy * 12 + sm ≤ cy * 12 + cm := hmi
    have hym : sy = cy ∧ sm = cm := by omega
    refine ⟨hym.1, hym.2, hd1', ?_⟩
    show sdd ≤ daysInMonth cy cm
    rw [← hym.1, ← hym.2]
    exact hd2'

lemma prevDay_nxt (cy cm : Nat) (h1 : 1 ≤ cm) (h2 : cm ≤ 12) :
    prevDay (if cm = 12 then (⟨cy + 1, 1, 1⟩ : Date) else ⟨cy, cm + 1, 1⟩) =
      ⟨cy, cm, daysInMonth cy cm⟩ := by
  by_cases hcm : cm = 12
  · subst hcm
    rw [if_pos rfl]
    show (if 1 < (1 : Nat) then (⟨cy + 1, 1, 1 - 1⟩ : Date)
      else if 1 < (1 : Nat) then ⟨cy + 1, 1 - 1, daysInMonth (cy + 1) (1 - 1)⟩
      else ⟨cy + 1 - 1, 12, 31⟩) = ⟨cy, 12, daysInMonth cy 12⟩
    rw [if_neg (by omega), if_neg (by omega), daysInMonth_12]
    simp
  · rw [if_neg hcm]
    show (if 1 < (1 : Nat) then (⟨cy, cm + 1, 1 - 1⟩ : Date)
      else if 1 < cm + 1 then ⟨cy, cm + 1 - 1, daysInMonth cy (cm + 1 - 1)⟩
      else ⟨cy - 1, 12, 31⟩) = ⟨cy, cm, daysInMonth cy cm⟩
    rw [if_neg (by omega), if_pos (by omega)]
    simp

lemma nextDay_monthLast (cy cm : Nat) (h1 : 1 ≤ cm) (h2 : cm ≤ 12) :
    nextDay ⟨cy, cm, daysInMonth cy cm⟩ =
      (if cm = 12 then (⟨cy + 1, 1, 1⟩ : Date) else ⟨cy, cm + 1, 1⟩) := by
  show (if daysInMonth cy cm < daysInMonth cy cm then
      (⟨cy, cm, daysInMonth cy cm + 1⟩ : Date)
    else if cm < 12 then ⟨cy, cm + 1, 1⟩ else ⟨cy + 1, 1, 1⟩) =
      (if cm = 12 then (⟨cy + 1, 1, 1⟩ : Date) else ⟨cy, cm + 1, 1⟩)
  rw [if_neg (by omega)]
  by_cases hcm : cm = 12
  · subst hcm
    rw [if_neg (by omega), if_pos rfl]
  · rw [if_pos (by omega), if_neg hcm]

/-- Invariant proof for the `month_ranges` loop: starting from the first day
of a month between the start's month and the end's month, with exactly enough
fuel, the emitted windows form a `chainOk` chain from the expected first day
down to `ed`. -/
lemma go_chain (sd ed : Date) (hs : ValidDate sd) (he : ValidDate ed)
    (hse : Date.le sd ed) :
    ∀ (fuel cy cm : Nat), 1 ≤ cm → cm ≤ 12 →
      monthIndex sd ≤ cy * 12 + cm → cy * 12 + cm ≤ monthIndex ed →
      fuel = monthIndex ed + 1 - (cy * 12 + cm) →
      chainOk ed (dmax ⟨cy, cm, 1⟩ sd) (month_ranges_go sd ed ⟨cy, cm, 1⟩ fuel) := by
  intro fuel
  induction fuel with
  | zero =>
    intro cy cm h1 h2 h3 h4 h5
    exfalso
    omega
  | succ fuel ih =>
    intro cy cm h1 h2 h3 h4 h5
    have hmi_ed : monthIndex ed = ed.year * 12 + ed.month := rfl
    have hguard : Date.le ⟨cy, cm, 1⟩ ⟨ed.year, ed.month, 1⟩ := by
      have hem1 : 1 ≤ ed.month := he.1
      have hem2 : ed.month ≤ 12 := he.2.1
      show cy < ed.year ∨ (cy = ed.year ∧ (cm < ed.month ∨ (cm = ed.month ∧ 1 ≤ 1)))
      omega
    rw [show month_ranges_go sd ed ⟨cy, cm, 1⟩ (fuel + 1) =
      (if Date.le ⟨cy, cm, 1⟩ ⟨ed.year, ed.month, 1⟩ then
        (dmax ⟨cy, cm, 1⟩ sd,
          dmin (prevDay (if cm = 12 then (⟨cy + 1, 1, 1⟩ : Date) else ⟨cy, cm + 1, 1⟩)) ed) ::
          month_ranges_go sd ed
            (if cm = 12 then (⟨cy + 1, 1, 1⟩ : Date) else ⟨cy, cm + 1, 1⟩) fuel
      else []) from rfl]
    rw [if_pos hguard, prevDay_nxt cy cm h1 h2]
    obtain ⟨hfy, hfm, hfd1, hfd2⟩ := dmax_first cy cm sd hs h1 h2 h3
    rcases Nat.lt_or_ge (cy * 12 + cm) (monthIndex ed) with hlt | hge
    · -- not yet the final month: the window ends at the month's last day
      have ht : dmin ⟨cy, cm, daysInMonth cy cm⟩ ed = ⟨cy, cm, daysInMonth cy cm⟩ := by
        apply dmin_eq_left
        exact date_le_of_mi_lt cy cm (daysInMonth cy cm) ed.year ed.month ed.day
          h2 he.1 he.2.1 (by omega)
      rw [ht]
      refine ⟨rfl, ?_, hfy, hfm, Or.inr ?_⟩
      · exact Or.inr ⟨hfy, Or.inr ⟨hfm, hfd2⟩⟩
      · rw [nextDay_monthLast cy cm h1 h2]
        have hsd_mi : sd.year * 12 + sd.month ≤ cy * 12 + cm := h3
        have hsm2 : sd.month ≤ 12 := hs.2.1
        by_cases hcm : cm = 12
        · subst hcm
          rw [if_pos rfl]
          have hsd_le : Date.le sd ⟨cy + 1, 1, 1⟩ := by
            have := date_le_of_mi_lt sd.year sd.month sd.day (cy + 1) 1 1
              hsm2 (le_refl 1) (by omega) (by omega)
            exact this
          have hrec := ih (cy + 1) 1 (by omega) (by omega) (by omega) (by omega) (by omega)
          rw [dmax_of_le ⟨cy + 1, 1, 1⟩ sd hsd_le] at hrec
          exact hrec
        · rw [if_neg hcm]
          have hsd_le : Date.le sd ⟨cy, cm + 1, 1⟩ := by
            have := date_le_of_mi_lt sd.year sd.month sd.day cy (cm + 1) 1
              hsm2 (by omega) (by omega) (by omega)
            exact this
          have hrec := ih cy (cm + 1) (by omega) (by omega) (by omega) (by omega) (by omega)
          rw [dmax_of_le ⟨cy, cm + 1, 1⟩ sd hsd_le] at hrec
          exact hrec
    · -- final month: the window ends exactly at `ed` and the loop stops
      have heq : cy * 12 + cm = ed.year * 12 + ed.month := by omega
      have hym : cy = ed.year ∧ cm = ed.month := by
        have hem1 : 1 ≤ ed.month := he.1
        have hem2 : ed.month ≤ 12 := he.2.1
        omega
      obtain ⟨hcy, hcm⟩ := hym
      subst hcy
      subst hcm
      rw [dmin_last ed he]
      have hfuel0 : fuel = 0 := by omega
      subst hfuel0
      refine ⟨rfl, ?_, hfy, hfm, Or.inl ⟨rfl, rfl⟩⟩
      apply dmax_le
      · show ed.year < ed.year ∨ (ed.year = ed.year ∧
          (ed.month < ed.month ∨ (ed.month = ed.month ∧ 1 ≤ ed.day)))
        exact Or.inr ⟨rfl, Or.inr ⟨rfl, he.2.2.1⟩⟩
      · exact hse

lemma chainOk_ne_nil {ed f : Date} {L : List (Date × Date)}
    (h : chainOk ed f L) : L ≠ [] := by
  intro hL
  subst hL
  exact h

lemma chainOk_head {ed f : Date} {L : List (Date × Date)} (h : chainOk ed f L) :
    (L.head?).map Prod.fst = some f := by
  cases L with
  | nil => exact h.elim
  | cons p rest =>
    obtain ⟨a, b⟩ := p
    obtain ⟨h1, -, -, -, -⟩ := h
    simp [h1]

lemma chainOk_getLast {ed : Date} :
    ∀ {L : List (Date × Date)} {f : Date}, chainOk ed f L →
      (L.getLast?).map Prod.snd = some ed := by
  intro L
  induction L with
  | nil => intro f h; exact h.elim
  | cons p rest ih =>
    intro f h
    obtain ⟨a, b⟩ := p
    obtain ⟨h1, h2, h3, h4, h5⟩ := h
    cases rest with
    | nil =>
      rcases h5 with ⟨-, ht⟩ | h5'
      · simp [ht]
      · exact h5'.elim
    | cons q rest' =>
      rcases h5 with ⟨hne, -⟩ | h5'
      · exact (List.cons_ne_nil _ _ hne).elim
      · rw [List.getLast?_cons_cons]
        exact ih h5'

lemma chainOk_each {ed : Date} :
    ∀ {L : List (Date × Date)} {f : Date}, chainOk ed f L →
      ∀ p ∈ L, Date.le p.1 p.2 ∧ p.1.year = p.2.year ∧ p.1.month = p.2.month := by
  intro L
  induction L with
  | nil => intro f h; exact h.elim
  | cons q rest ih =>
    intro f h p hp
    obtain ⟨a, b⟩ := q
    obtain ⟨h1, h2, h3, h4, h5⟩ := h
    rcases List.mem_cons.mp hp with rfl | hp'
    · exact ⟨h2, h3, h4⟩
    · rcases h5 with ⟨hrest, -⟩ | h5'
      · rw [hrest] at hp'
        exact absurd hp' (List.not_mem_nil p)
      · exact ih h5' p hp'

lemma chainOk_chain {ed : Date} :
    ∀ {L : List (Date × Date)} {f : Date}, chainOk ed f L →
      List.Chain' (fun a b => b.1 = nextDay a.2) L := by
  intro L
  induction L with
  | nil => intro f _; exact List.chain'_nil
  | cons q rest ih =>
    intro f h
    obtain ⟨a, b⟩ := q
    obtain ⟨h1, h2, h3, h4, h5⟩ := h
    cases rest with
    | nil => exact List.chain'_singleton _
    | cons r rest' =>
      rcases h5 with ⟨hne, -⟩ | h5'
      · exact (List.cons_ne_nil _ _ hne).elim
      · obtain ⟨c, d⟩ := r
        refine List.chain'_cons.mpr ⟨?_, ih h5'⟩
        obtain ⟨hc1, -, -, -, -⟩ := h5'
        exact hc1

lemma dmax_monthFirst_self (sd : Date) (hs : ValidDate sd) :
    dmax ⟨sd.year, sd.month, 1⟩ sd = sd := by
  obtain ⟨sy, sm, sdd⟩ := sd
  obtain ⟨-, -, hd1, -⟩ := hs
  have hd1' : 1 ≤ sdd := hd1
  unfold dmax
  by_cases h : Date.le ⟨sy, sm, sdd⟩ ⟨sy, sm, 1⟩
  · rw [if_pos h]
    have h' : sy < sy ∨ (sy = sy ∧ (sm < sm ∨ (sm = sm ∧ sdd ≤ 1))) := h
    have he : sdd = 1 := by omega
    rw [he]
  · rw [if_neg h]

lemma mi_le_of_date_le {a b : Date} (ha : a.month ≤ 12) (hb : 1 ≤ b.month)
    (h : Date.le a b) : a.year * 12 + a.month ≤ b.year * 12 + b.month := by
  obtain ⟨y1, m1, d1⟩ := a
  obtain ⟨y2, m2, d2⟩ := b
  have ha' : m1 ≤ 12 := ha
  have hb' : 1 ≤ m2 := hb
  have h' : y1 < y2 ∨ (y1 = y2 ∧ (m1 < m2 ∨ (m1 = m2 ∧ d1 ≤ d2))) := h
  show y1 * 12 + m1 ≤ y2 * 12 + m2
  omega

/-- **C2**: for all valid dates `start ≤ end`, `month_ranges` returns at
least one window; the first window begins at `start`, the last ends at
`end`, every window satisfies `from ≤ to` and lies within one calendar
month, and each window begins exactly on the day after the previous window's
end — so the windows partition `[start, end]` with no gaps or overlaps. -/
theorem month_ranges_spec (sd ed : Date) (hs : ValidDate sd) (he : ValidDate ed)
    (hse : Date.le sd ed) :
    month_ranges sd ed ≠ [] ∧
    ((month_ranges sd ed).head?).map Prod.fst = some sd ∧
    ((month_ranges sd ed).getLast?).map Prod.snd = some ed ∧
    (∀ p ∈ month_ranges sd ed,
      Date.le p.1 p.2 ∧ p.1.year = p.2.year ∧ p.1.month = p.2.month) ∧
    List.Chain' (fun a b => b.1 = nextDay a.2) (month_ranges sd ed) := by
  have hchain : chainOk ed sd (month_ranges sd ed) := by
    have h := go_chain sd ed hs he hse
      (monthIndex ed + 1 - (sd.year * 12 + sd.month)) sd.year sd.month
      hs.1 hs.2.1 (le_refl _)
      (mi_le_of_date_le hs.2.1 he.1 hse) rfl
    rw [dmax_monthFirst_self sd hs] at h
    exact h
  exact ⟨chainOk_ne_nil hchain, chainOk_head hchain, chainOk_getLast hchain,
    chainOk_each hchain, chainOk_chain hchain⟩

/-- Witness for C2 at a concrete three-month range. -/
theorem month_ranges_spec_witness :
    ValidDate ⟨2025, 1, 15⟩ ∧ ValidDate ⟨2025, 3, 10⟩ ∧
    Date.le ⟨2025, 1, 15⟩ ⟨2025, 3, 10⟩ ∧
    (month_ranges ⟨2025, 1, 15⟩ ⟨2025, 3, 10⟩ ≠ [] ∧
    ((month_ranges ⟨2025, 1, 15⟩ ⟨2025, 3, 10⟩).head?).map Prod.fst =
      some ⟨2025, 1, 15⟩ ∧
    ((month_ranges ⟨2025, 1, 15⟩ ⟨2025, 3, 10⟩).getLast?).map Prod.snd =
      some ⟨2025, 3, 10⟩ ∧
    (∀ p ∈ month_ranges ⟨2025, 1, 15⟩ ⟨2025, 3, 10⟩,
      Date.le p.1 p.2 ∧ p.1.year = p.2.year ∧ p.1.month = p.2.month) ∧
    List.Chain' (fun a b => b.1 = nextDay a.2)
      (month_ranges ⟨2025, 1, 15⟩ ⟨2025, 3, 10⟩)) :=
  ⟨by decide, by decide, by decide,
   month_ranges_spec ⟨2025, 1, 15⟩ ⟨2025, 3, 10⟩ (by decide) (by decide) (by decide)⟩
